import Mathlib

/-!
Shallow embedding of the Spatial2D grid library (`src/matrix_module/matrix.rs`,
`src/matrix_module/analysis.rs`, `src/matrix_module/algorithms.rs`) and proofs
about its neighbour enumeration, BFS traversal and A* search.

Modelling conventions:
* `u32` coordinates are modelled as `ℕ`.  The code never lets a subtraction
  underflow on the values it pushes (every subtraction is guarded), with the
  single exception of `size.x - 1` / `size.y - 1`, which in release builds
  wraps around for a zero-sized grid; this wrapping is modelled explicitly by
  `u32sub1`.  The `UVec2::MAX` sentinel is the pair `(4294967295, 4294967295)`.
* `f32` cost arithmetic is modelled exactly over `ℚ` extended with a formal
  `√2`-component (`Q2`, the cost values `a + b·√2`); comparisons are the exact
  real-number comparisons, proved correct by `Q2.leb_iff`.
* the `priority_queue` crate is modelled as an association list with unique
  keys: `push` replaces the priority of an existing key in place, `pop`
  removes the entry whose priority is greatest.  The crate compares
  priorities with the comparison operators, which for the program's
  `Reverse<FloatOrd>` priorities resolve through the derived `PartialOrd` of
  `FloatOrd`, so the popped entry is the one with the least f-cost; ties are
  resolved towards the entry inserted first.
* `debug_assert!` is modelled by an explicit `debugAssertions` flag where the
  assertion is observable (`Matrix.from_elements`).
-/

namespace Spatial2D

/-- A pair of `u32` coordinates (glam `UVec2`), modelled over `ℕ`. -/
structure UVec2 where
  x : ℕ
  y : ℕ
deriving DecidableEq, Repr

/-- The `UVec2::MAX` sentinel value. -/
def uvec2Max : UVec2 := ⟨4294967295, 4294967295⟩

/-- `u32` wrapping subtraction of `1`, used for the `size.x - 1` bound checks
(release-build semantics; the value only differs from `n - 1` at `n = 0`). -/
def u32sub1 (n : ℕ) : ℕ :=
  if n = 0 then 4294967295 else n - 1

/-- The dense grid store (`Matrix<T>` in `matrix.rs`): a flat element list
addressed row-major by a `size`. -/
structure Matrix (α : Type) where
  elements : List α
  size : UVec2
deriving DecidableEq, Repr

/-- The construction failure of `from_elements` (spec: ConstructionError). -/
inductive ConstructionError where
  | lengthMismatch
deriving DecidableEq, Repr

namespace Matrix

variable {α : Type}

/-- `Matrix::splat`: a grid of the requested size filled with one value. -/
def splat (size : UVec2) (value : α) : Matrix α :=
  ⟨List.replicate (size.x * size.y) value, size⟩

/-- `Matrix::from_elements`: builds a grid from an explicit flat list.  The
length check is a `debug_assert!`, so it only runs when `debugAssertions` is
set; in optimized builds the grid is constructed unconditionally. -/
def from_elements (debugAssertions : Bool) (elements : List α) (size : UVec2) :
    Except ConstructionError (Matrix α) :=
  if debugAssertions ∧ elements.length ≠ size.x * size.y then
    .error .lengthMismatch
  else
    .ok ⟨elements, size⟩

/-- `Matrix::is_in_bounds`. -/
def is_in_bounds (m : Matrix α) (pos : UVec2) : Prop :=
  pos.x < m.size.x ∧ pos.y < m.size.y

instance (m : Matrix α) (pos : UVec2) : Decidable (m.is_in_bounds pos) :=
  inferInstanceAs (Decidable (_ ∧ _))

/-- `Matrix::pos_to_idx`: the row-major index `y * width + x`. -/
def pos_to_idx (m : Matrix α) (pos : UVec2) : ℕ :=
  pos.y * m.size.x + pos.x

/-- `Matrix::idx_to_pos`: `(idx % width, idx / width)`. -/
def idx_to_pos (m : Matrix α) (idx : ℕ) : UVec2 :=
  ⟨idx % m.size.x, idx / m.size.x⟩

/-- `Matrix::element_count`. -/
def element_count (m : Matrix α) : ℕ :=
  m.size.x * m.size.y

/-- `Matrix::get`: positional read (the source performs unchecked access with
the in-bounds precondition; the model totalizes it with a default). -/
def get [Inhabited α] (m : Matrix α) (pos : UVec2) : α :=
  m.elements.getD (m.pos_to_idx pos) default

/-- `Matrix::neighbours_no_diag` (`analysis.rs`): cardinal-4 neighbours in the
order top (north), left (west), right (east), bottom (south), each guarded
against leaving the grid. -/
def neighbours_no_diag (m : Matrix α) (pos : UVec2) : List UVec2 :=
  (if 0 < pos.y then [⟨pos.x, pos.y - 1⟩] else []) ++
  (if 0 < pos.x then [⟨pos.x - 1, pos.y⟩] else []) ++
  (if pos.x < u32sub1 m.size.x then [⟨pos.x + 1, pos.y⟩] else []) ++
  (if pos.y < u32sub1 m.size.y then [⟨pos.x, pos.y + 1⟩] else [])

/-- `Matrix::neighbours` (`analysis.rs`): the full-8 neighbourhood in the order
top-left, top, top-right, left, right, bottom-left, bottom, bottom-right,
where each diagonal requires both of its contributing cardinal steps. -/
def neighbours (m : Matrix α) (pos : UVec2) : List UVec2 :=
  let canLeft := 0 < pos.x
  let canRight := pos.x < u32sub1 m.size.x
  let canUp := 0 < pos.y
  let canDown := pos.y < u32sub1 m.size.y
  (if canUp then
    (if canLeft then [⟨pos.x - 1, pos.y - 1⟩] else []) ++
    [⟨pos.x, pos.y - 1⟩] ++
    (if canRight then [⟨pos.x + 1, pos.y - 1⟩] else [])
  else []) ++
  (if canLeft then [⟨pos.x - 1, pos.y⟩] else []) ++
  (if canRight then [⟨pos.x + 1, pos.y⟩] else []) ++
  (if canDown then
    (if canLeft then [⟨pos.x - 1, pos.y + 1⟩] else []) ++
    [⟨pos.x, pos.y + 1⟩] ++
    (if canRight then [⟨pos.x + 1, pos.y + 1⟩] else [])
  else [])

end Matrix

/-- `wrap_i32` (`lib.rs`): wraps a value into `[rstart, rend)` using the
truncated remainder (Rust `%` on `i32`). -/
def wrap_i32 (value : ℤ) (rstart rend : ℤ) : ℤ :=
  let size := rend - rstart
  (((value - rstart).tmod size + size).tmod size) + rstart

/-- The direction table of the wrapping neighbour enumerations
(up, down, left, right, then the four diagonals). -/
def wrapDirs8 : List (ℤ × ℤ) :=
  [(0, -1), (0, 1), (-1, 0), (1, 0), (-1, -1), (1, -1), (-1, 1), (1, 1)]

/-- The cardinal direction table of `neighbours_no_diag_wrapping`. -/
def wrapDirs4 : List (ℤ × ℤ) :=
  [(0, -1), (0, 1), (-1, 0), (1, 0)]

namespace Matrix

variable {α : Type}

/-- Shared body of the wrapping neighbour enumerations: both coordinates wrap
modulo the larger grid extent (`size_i.max_element()`). -/
def wrapNeighbour (m : Matrix α) (pos : UVec2) (dir : ℤ × ℤ) : UVec2 :=
  let maxEl : ℤ := max (m.size.x : ℤ) (m.size.y : ℤ)
  let nx := wrap_i32 ((pos.x : ℤ) + dir.1) 0 maxEl
  let ny := wrap_i32 ((pos.y : ℤ) + dir.2) 0 maxEl
  ⟨nx.toNat, ny.toNat⟩

/-- `Matrix::neighbours_wrapping` (`analysis.rs`). -/
def neighbours_wrapping (m : Matrix α) (pos : UVec2) : List UVec2 :=
  wrapDirs8.map (m.wrapNeighbour pos)

/-- `Matrix::neighbours_no_diag_wrapping` (`analysis.rs`). -/
def neighbours_no_diag_wrapping (m : Matrix α) (pos : UVec2) : List UVec2 :=
  wrapDirs4.map (m.wrapNeighbour pos)

end Matrix

/-! ### Traversal engine (`algorithms.rs`): BFS and gated flood-match BFS -/

namespace Matrix

variable {α : Type}

/-- The enqueue-if-unvisited fold shared by the BFS loops, over an arbitrary
candidate list `L` (instantiated with the cardinal neighbour list). -/
def bfsInsertFold (L queue : List UVec2) (visited : Finset UVec2) :
    List UVec2 × Finset UVec2 :=
  L.foldl (fun qv n => if n ∈ qv.2 then qv else (qv.1 ++ [n], insert n qv.2))
    (queue, visited)

/-- One expansion step shared by the BFS loops: pushes every not-yet-visited
cardinal neighbour of `pos` (`visited.insert` returning `true` in the source). -/
def bfsInsertNeighbours (m : Matrix α) (pos : UVec2)
    (queue : List UVec2) (visited : Finset UVec2) : List UVec2 × Finset UVec2 :=
  (m.neighbours_no_diag pos).foldl
    (fun qv n => if n ∈ qv.2 then qv else (qv.1 ++ [n], insert n qv.2))
    (queue, visited)

/-- The loop of `Matrix::bfs`: dequeue, test the predicate, return on a match,
otherwise enqueue unvisited cardinal neighbours.  `fuel` only bounds the
recursion; `element_count + 1` is always enough (each dequeued position was
freshly inserted into `visited` when it was enqueued). -/
def bfsLoop [Inhabited α] (m : Matrix α) (searchFn : α → UVec2 → Bool) :
    ℕ → List UVec2 → Finset UVec2 → Option (UVec2 × α)
  | 0, _, _ => none
  | _ + 1, [], _ => none
  | fuel + 1, pos :: queue, visited =>
    if searchFn (m.get pos) pos then some (pos, m.get pos)
    else
      let qv := m.bfsInsertNeighbours pos queue visited
      m.bfsLoop searchFn fuel qv.1 qv.2

/-- `Matrix::bfs`: single-match breadth-first search. -/
def bfs [Inhabited α] (m : Matrix α) (startingPos : UVec2)
    (searchFn : α → UVec2 → Bool) : Option (UVec2 × α) :=
  m.bfsLoop searchFn (m.element_count + 1) [startingPos] {startingPos}

/-- The dequeue order of the (predicate-independent) exploration underlying
`Matrix::bfs`: the positions in the order they are popped when no position
matches. -/
def bfsOrderLoop (m : Matrix α) :
    ℕ → List UVec2 → Finset UVec2 → List UVec2
  | 0, _, _ => []
  | _ + 1, [], _ => []
  | fuel + 1, pos :: queue, visited =>
    let qv := m.bfsInsertNeighbours pos queue visited
    pos :: m.bfsOrderLoop fuel qv.1 qv.2

/-- The full dequeue order of a `bfs` run from `startingPos` that never
matches. -/
def bfsOrder (m : Matrix α) (startingPos : UVec2) : List UVec2 :=
  m.bfsOrderLoop (m.element_count + 1) [startingPos] {startingPos}

/-- The loop of `Matrix::bfs_multi`: a dequeued position is appended to
`found` when it matches, and only then are its unvisited cardinal neighbours
enqueued (gated expansion). -/
def bfs_multiLoop [Inhabited α] (m : Matrix α) (searchFn : α → UVec2 → Bool) :
    ℕ → List UVec2 → Finset UVec2 → List (UVec2 × α) → List (UVec2 × α)
  | 0, _, _, found => found
  | _ + 1, [], _, found => found
  | fuel + 1, pos :: queue, visited, found =>
    if searchFn (m.get pos) pos then
      let qv := m.bfsInsertNeighbours pos queue visited
      m.bfs_multiLoop searchFn fuel qv.1 qv.2 (found ++ [(pos, m.get pos)])
    else
      m.bfs_multiLoop searchFn fuel queue visited found

/-- `Matrix::bfs_multi`: gated flood-match BFS over cardinal connectivity. -/
def bfs_multi [Inhabited α] (m : Matrix α) (startingPos : UVec2)
    (searchFn : α → UVec2 → Bool) : List (UVec2 × α) :=
  m.bfs_multiLoop searchFn (m.element_count + 1) [startingPos] {startingPos} []

end Matrix

/-! ### Exact model of the `f32` cost arithmetic

Every cost value the A* search manipulates has the form `a + b * √2` with
`a b : ℚ` (`g`-costs are rational, the heuristic contributes the `√2`-part),
so costs are modelled by pairs and compared exactly. -/

/-- A cost value `a + b * √2`. -/
structure Q2 where
  a : ℚ
  b : ℚ
deriving DecidableEq, Repr

namespace Q2

/-- The real number a `Q2` denotes. -/
noncomputable def val (p : Q2) : ℝ := (p.a : ℝ) + (p.b : ℝ) * Real.sqrt 2

/-- Exact decision of `p ≤ q` (as real numbers): `0 ≤ c + d√2` reduces to sign
tests and a comparison of squares over `ℚ`. -/
def leb (p q : Q2) : Bool :=
  let c : ℚ := q.a - p.a
  let d : ℚ := q.b - p.b
  if 0 ≤ d then decide (0 ≤ c) || decide (c ^ 2 ≤ 2 * d ^ 2)
  else decide (0 ≤ c) && decide (2 * d ^ 2 ≤ c ^ 2)

end Q2

/-- Strict order on `Option ℚ` viewed as `ℚ ∪ {∞}` (`none` is `f32::INFINITY`,
the initial `g`-cost): mirrors the `tentative_g_cost < g_costs[idx]`
comparison. -/
def oqLt : Option ℚ → Option ℚ → Bool
  | none, _ => false
  | some _, none => true
  | some aq, some bq => decide (aq < bq)

/-! ### Pathfinder (`algorithms.rs`): A* search

The frontier is the `priority_queue` crate's keyed priority queue with
priorities `Reverse(FloatOrd(f))`: `push` replaces the priority of a present
key, `pop` removes the entry whose priority is greatest, which under the
crate's operator comparisons is the entry with the least `f`-cost (ties go to
the earlier entry). -/

/-- Keyed priority insert: replaces the priority of an existing key in place,
otherwise appends. -/
def pqPush (q : List (UVec2 × Q2)) (key : UVec2) (prio : Q2) : List (UVec2 × Q2) :=
  if q.any (fun e => e.1 = key) then
    q.map (fun e => if e.1 = key then (key, prio) else e)
  else q ++ [(key, prio)]

/-- Keyed priority pop: removes the entry with the least `f`-cost, preferring
the earlier entry on ties, and returns it with the remaining queue. -/
def pqPopMin : List (UVec2 × Q2) → Option ((UVec2 × Q2) × List (UVec2 × Q2))
  | [] => none
  | e :: rest =>
    match pqPopMin rest with
    | none => some (e, [])
    | some (best, others) =>
      if Q2.leb e.2 best.2 then some (e, rest)
      else some (best, e :: others)

/-- `calculate_h_cost` (`algorithms.rs`): the octile estimate
`min·√2·diag_multiplier + (max − min)` of the coordinate deltas. -/
def calculate_h_cost (startPos targetPos : UVec2) (diagSpeedMultiplier : ℚ) : Q2 :=
  let distX : ℚ := (((startPos.x : ℤ) - (targetPos.x : ℤ)).natAbs : ℚ)
  let distY : ℚ := (((startPos.y : ℤ) - (targetPos.y : ℤ)).natAbs : ℚ)
  if distY < distX then ⟨distX - distY, diagSpeedMultiplier * distY⟩
  else ⟨distY - distX, diagSpeedMultiplier * distX⟩

/-- `as_ivec2` subtraction, used for the direction-change test. -/
def ivecSub (p q : UVec2) : ℤ × ℤ := ((p.x : ℤ) - (q.x : ℤ), (p.y : ℤ) - (q.y : ℤ))

/-- The per-call bookkeeping of `a_star_search`: predecessor, `g`-cost and
closed flag per cell (dense, row-major), the open frontier, and the number of
node expansions so far. -/
structure AStarState where
  cameFrom : List UVec2
  gCosts : List (Option ℚ)
  closed : List Bool
  openNodes : List (UVec2 × Q2)
  depth : ℕ
deriving Repr

/-- The three ways the search loop can end, plus the model-only fuel exit
(proved unreachable when the loop is run with enough fuel). -/
inductive AStarOutcome where
  | found : List UVec2 → AStarOutcome
  | budgetExceeded : AStarOutcome
  | exhausted : AStarOutcome
  | outOfFuel : AStarOutcome
deriving DecidableEq, Repr

namespace Matrix

variable {α : Type}

/-- The body of the neighbour loop of `a_star_search`: skip closed or
impassable neighbours, add the move cost (`1/speed`) and the turn penalty,
and on strict improvement (`tentative_g_cost < g_costs[idx]`) record the
predecessor and `g`-cost and push the neighbour with its new `f`-cost.  An
infinite tentative cost (`none`, the case `g_costs[current] = ∞`) never
passes the strict `<` test, so that case skips directly. -/
def aStarVisitNeighbour [Inhabited α] (m : Matrix α)
    (speedFn : UVec2 → UVec2 → α → ℚ) (turnPenalty : ℚ) (diagM : ℚ)
    (target currentPos : UVec2) (currentIdx : ℕ) (closed : List Bool)
    (acc : List UVec2 × List (Option ℚ) × List (UVec2 × Q2))
    (neighbourPos : UVec2) :
    List UVec2 × List (Option ℚ) × List (UVec2 × Q2) :=
  let cameFrom := acc.1
  let gCosts := acc.2.1
  let openNodes := acc.2.2
  let neighbourIdx := m.pos_to_idx neighbourPos
  if closed.getD neighbourIdx false then acc
  else
    let moveSpeed := speedFn currentPos neighbourPos (m.get neighbourPos)
    if moveSpeed ≤ 0 then acc
    else
      let moveCost := 1 / moveSpeed
      let previousPos := cameFrom.getD currentIdx uvec2Max
      let isTurn : Bool :=
        previousPos ≠ uvec2Max &&
          ivecSub currentPos previousPos ≠ ivecSub neighbourPos currentPos
      match (gCosts.getD currentIdx none).map
          (fun g => g + moveCost + if isTurn then turnPenalty else 0) with
      | none => acc
      | some t =>
        if oqLt (some t) (gCosts.getD neighbourIdx none) then
          let h := calculate_h_cost neighbourPos target diagM
          (cameFrom.set neighbourIdx currentPos,
            gCosts.set neighbourIdx (some t),
            pqPush openNodes neighbourPos ⟨t + h.a, h.b⟩)
        else acc

/-- The loop of `retrace_path`: follow predecessor links until the `MAX`
sentinel, collecting positions. -/
def retraceLoop (m : Matrix α) (cameFrom : List UVec2) :
    ℕ → UVec2 → List UVec2 → List UVec2
  | 0, _, path => path
  | fuel + 1, current, path =>
    let prev := cameFrom.getD (m.pos_to_idx current) uvec2Max
    if prev = uvec2Max then path
    else m.retraceLoop cameFrom fuel prev (path ++ [prev])

/-- `retrace_path` (`algorithms.rs`): walk predecessors back from the target
and reverse. -/
def retrace_path (m : Matrix α) (cameFrom : List UVec2) (current : UVec2) :
    List UVec2 :=
  (m.retraceLoop cameFrom (m.element_count + 1) current [current]).reverse

/-- The main loop of `a_star_search`: pop the least-`f` entry, count the
expansion against the budget, return the retraced path on reaching the
target, otherwise close the cell and relax its neighbours. -/
def aStarLoop [Inhabited α] (m : Matrix α)
    (speedFn : UVec2 → UVec2 → α → ℚ) (turnPenalty : ℚ)
    (maxSearchDepth : Option ℕ) (diagCostMultiplier : Option ℚ)
    (target : UVec2) : ℕ → AStarState → AStarOutcome
  | 0, _ => .outOfFuel
  | fuel + 1, st =>
    match pqPopMin st.openNodes with
    | none => .exhausted
    | some (current, restOpen) =>
      let currentPos := current.1
      let depth := st.depth + 1
      let maxDepth := maxSearchDepth.getD 4294967295
      if maxDepth < depth then .budgetExceeded
      else if currentPos = target then
        .found (m.retrace_path st.cameFrom currentPos)
      else
        let currentIdx := m.pos_to_idx currentPos
        let closed := st.closed.set currentIdx true
        let neighbors :=
          if diagCostMultiplier.isSome then m.neighbours currentPos
          else m.neighbours_no_diag currentPos
        let diagM := diagCostMultiplier.getD 1
        let acc := neighbors.foldl
          (m.aStarVisitNeighbour speedFn turnPenalty diagM target currentPos
            currentIdx closed)
          (st.cameFrom, st.gCosts, restOpen)
        m.aStarLoop speedFn turnPenalty maxSearchDepth diagCostMultiplier
          target fuel ⟨acc.1, acc.2.1, closed, acc.2.2, depth⟩

/-- The initial bookkeeping of `a_star_search`: all predecessors `MAX`, all
`g`-costs infinite except `g[start] = 0`, nothing closed, the frontier holding
`start` with priority `0`. -/
def aStarInit (m : Matrix α) (start : UVec2) : AStarState :=
  ⟨List.replicate m.element_count uvec2Max,
   (List.replicate m.element_count (none : Option ℚ)).set
     (m.pos_to_idx start) (some 0),
   List.replicate m.element_count false,
   [(start, ⟨0, 0⟩)],
   0⟩

/-- `a_star_search` with its exit labelled (the two `return None` sites are
`budgetExceeded` and `exhausted`). -/
def aStarRun [Inhabited α] (m : Matrix α) (start target : UVec2)
    (speedFn : UVec2 → UVec2 → α → ℚ) (turnPenalty : ℚ)
    (maxSearchDepth : Option ℕ) (diagCostMultiplier : Option ℚ) :
    AStarOutcome :=
  m.aStarLoop speedFn turnPenalty maxSearchDepth diagCostMultiplier target
    (m.element_count + 1) (m.aStarInit start)

/-- `Matrix::a_star_search`: both failure exits collapse to `none`. -/
def a_star_search [Inhabited α] (m : Matrix α) (start target : UVec2)
    (speedFn : UVec2 → UVec2 → α → ℚ) (turnPenalty : ℚ)
    (maxSearchDepth : Option ℕ) (diagCostMultiplier : Option ℚ) :
    Option (List UVec2) :=
  match m.aStarRun start target speedFn turnPenalty maxSearchDepth
      diagCostMultiplier with
  | .found path => some path
  | _ => none

end Matrix

/-! ### Spec-side notions used to state the claims -/

/-- Manhattan distance between two positions. -/
def manhattan (p q : UVec2) : ℕ :=
  ((p.x : ℤ) - (q.x : ℤ)).natAbs + ((p.y : ℤ) - (q.y : ℤ)).natAbs

namespace Matrix

variable {α : Type}

/-- One cardinal step of the ungated BFS: `b` is a cardinal neighbour of `a`. -/
def Step (m : Matrix α) (a b : UVec2) : Prop :=
  b ∈ m.neighbours_no_diag a

/-- Reachability from `start` by cardinal steps (the cells the ungated BFS
explores). -/
def Reaches (m : Matrix α) (start p : UVec2) : Prop :=
  Relation.ReflTransGen m.Step start p

/-- One gated step: the source cell matches the predicate and the target is a
cardinal neighbour of it. -/
def GatedStep [Inhabited α] (m : Matrix α) (searchFn : α → UVec2 → Bool)
    (a b : UVec2) : Prop :=
  searchFn (m.get a) a = true ∧ b ∈ m.neighbours_no_diag a

/-- Reachability from the seed through matching cells. -/
def GatedReaches [Inhabited α] (m : Matrix α) (searchFn : α → UVec2 → Bool)
    (seed p : UVec2) : Prop :=
  Relation.ReflTransGen (m.GatedStep searchFn) seed p

/-- The 4-connected matching region containing the seed: matching cells joined
to the seed by a chain of matching cells, consecutive ones cardinal
neighbours. -/
def InMatchRegion [Inhabited α] (m : Matrix α) (searchFn : α → UVec2 → Bool)
    (seed p : UVec2) : Prop :=
  m.GatedReaches searchFn seed p ∧ searchFn (m.get p) p = true

/-- The in-bounds positions of a grid, as a finite set. -/
def validPos (m : Matrix α) : Finset UVec2 :=
  ((Finset.range m.size.x) ×ˢ (Finset.range m.size.y)).image fun ab =>
    ⟨ab.1, ab.2⟩

/-- `pos` lies on the left or right border column. -/
def onVerticalBorder (m : Matrix α) (pos : UVec2) : Prop :=
  pos.x = 0 ∨ pos.x + 1 = m.size.x

/-- `pos` lies on the top or bottom border row. -/
def onHorizontalBorder (m : Matrix α) (pos : UVec2) : Prop :=
  pos.y = 0 ∨ pos.y + 1 = m.size.y

/-- `pos` is a corner cell. -/
def isCorner (m : Matrix α) (pos : UVec2) : Prop :=
  m.onVerticalBorder pos ∧ m.onHorizontalBorder pos

/-- `pos` is an edge (non-corner border) cell. -/
def isEdge (m : Matrix α) (pos : UVec2) : Prop :=
  (m.onVerticalBorder pos ∨ m.onHorizontalBorder pos) ∧ ¬ m.isCorner pos

/-- `pos` is an interior cell. -/
def isInterior (m : Matrix α) (pos : UVec2) : Prop :=
  ¬ m.onVerticalBorder pos ∧ ¬ m.onHorizontalBorder pos

instance (m : Matrix α) (pos : UVec2) : Decidable (m.onVerticalBorder pos) :=
  inferInstanceAs (Decidable (_ ∨ _))

instance (m : Matrix α) (pos : UVec2) : Decidable (m.onHorizontalBorder pos) :=
  inferInstanceAs (Decidable (_ ∨ _))

instance (m : Matrix α) (pos : UVec2) : Decidable (m.isCorner pos) :=
  inferInstanceAs (Decidable (_ ∧ _))

instance (m : Matrix α) (pos : UVec2) : Decidable (m.isEdge pos) :=
  inferInstanceAs (Decidable (_ ∧ _))

instance (m : Matrix α) (pos : UVec2) : Decidable (m.isInterior pos) :=
  inferInstanceAs (Decidable (_ ∧ _))

instance (m : Matrix α) (a b : UVec2) : Decidable (m.Step a b) :=
  inferInstanceAs (Decidable (_ ∈ _))

instance [Inhabited α] (m : Matrix α) (searchFn : α → UVec2 → Bool)
    (a b : UVec2) : Decidable (m.GatedStep searchFn a b) :=
  inferInstanceAs (Decidable (_ ∧ _))

end Matrix

/-! ## Theorems -/

theorem u32sub1_of_pos {n : ℕ} (h : 0 < n) : u32sub1 n = n - 1 := by
  unfold u32sub1
  split <;> omega

namespace Matrix

variable {α : Type}

/-- C3: on a `w×h` grid the row-major index mapping is `y*width + x`, and
`pos_to_idx` / `idx_to_pos` are exact inverses: `idx_to_pos (pos_to_idx p) = p`
for every in-bounds `p`, and `pos_to_idx (idx_to_pos i) = i` for every
`i < w*h`. -/
theorem C3_index_bijection (m : Matrix α) :
    (∀ p : UVec2, m.is_in_bounds p →
      m.pos_to_idx p = p.y * m.size.x + p.x ∧
        m.idx_to_pos (m.pos_to_idx p) = p) ∧
    (∀ i : ℕ, i < m.size.x * m.size.y → m.pos_to_idx (m.idx_to_pos i) = i) := by
  constructor
  · rintro ⟨x, y⟩ ⟨hx, hy⟩
    refine ⟨rfl, ?_⟩
    unfold pos_to_idx idx_to_pos
    have hw : 0 < m.size.x := Nat.lt_of_le_of_lt (Nat.zero_le x) hx
    simp only
    congr 1
    · rw [Nat.mul_comm y m.size.x, Nat.mul_add_mod, Nat.mod_eq_of_lt hx]
    · rw [Nat.mul_comm y m.size.x, Nat.mul_add_div hw, Nat.div_eq_of_lt hx,
        Nat.add_zero]
  · intro i hi
    unfold pos_to_idx idx_to_pos
    exact Nat.div_add_mod' i m.size.x

end Matrix

/-- C3 witness on a concrete 2×3 grid. -/
theorem C3_index_bijection_witness :
    (Matrix.splat ⟨2, 3⟩ (0 : ℕ)).idx_to_pos
        ((Matrix.splat ⟨2, 3⟩ (0 : ℕ)).pos_to_idx ⟨1, 2⟩) = ⟨1, 2⟩ ∧
    (Matrix.splat ⟨2, 3⟩ (0 : ℕ)).pos_to_idx
        ((Matrix.splat ⟨2, 3⟩ (0 : ℕ)).idx_to_pos 5) = 5 :=
  ⟨((Matrix.C3_index_bijection (Matrix.splat ⟨2, 3⟩ (0 : ℕ))).1 ⟨1, 2⟩
      (by decide)).2,
   (Matrix.C3_index_bijection (Matrix.splat ⟨2, 3⟩ (0 : ℕ))).2 5 (by decide)⟩

/-- C6 counterexample: without debug assertions (optimized builds),
`from_elements` happily constructs a 2×2 grid backed by a single element,
violating the length invariant. -/
theorem C6_counterexample :
    Matrix.from_elements false [true] ⟨2, 2⟩ =
      Except.ok (Matrix.mk [true] ⟨2, 2⟩) ∧
    (Matrix.mk [true] ⟨2, 2⟩ : Matrix Bool).elements.length ≠
      (Matrix.mk [true] ⟨2, 2⟩ : Matrix Bool).size.x *
        (Matrix.mk [true] ⟨2, 2⟩ : Matrix Bool).size.y := by
  constructor
  · rfl
  · decide

/-- C6 (amended): with debug assertions enabled, constructing a grid from an
explicit value list fails with a ConstructionError exactly when the list
length differs from `width*height`, and every grid constructed successfully
satisfies `elements.length = width*height`. -/
theorem C6_construction_checked {α : Type} (elements : List α) (size : UVec2) :
    ((Matrix.from_elements true elements size =
        Except.error ConstructionError.lengthMismatch) ↔
      elements.length ≠ size.x * size.y) ∧
    (∀ m : Matrix α, Matrix.from_elements true elements size = Except.ok m →
      m.elements.length = m.size.x * m.size.y) := by
  unfold Matrix.from_elements
  split
  · rename_i h
    refine ⟨⟨fun _ => h.2, fun _ => rfl⟩, fun m hm => absurd hm (by simp)⟩
  · rename_i h
    have hlen : elements.length = size.x * size.y := by
      by_contra hc
      exact h ⟨rfl, hc⟩
    refine ⟨⟨fun hco => absurd hco (by simp), fun hne => absurd hlen hne⟩, ?_⟩
    intro m hm
    injection hm with hm
    rw [← hm]
    exact hlen

/-- C6 witness: the checked construction rejects one element for a 2×2 grid
and accepts four. -/
theorem C6_construction_checked_witness :
    Matrix.from_elements true [false] ⟨2, 2⟩ =
      Except.error ConstructionError.lengthMismatch ∧
    ∀ m : Matrix Bool,
      Matrix.from_elements true [false, false, true, true] ⟨2, 2⟩ =
        Except.ok m → m.elements.length = m.size.x * m.size.y :=
  ⟨(C6_construction_checked [false] ⟨2, 2⟩).1.mpr (by decide),
   (C6_construction_checked [false, false, true, true] ⟨2, 2⟩).2⟩

theorem UVec2.mk_x (a b : ℕ) : (UVec2.mk a b).x = a := rfl

theorem UVec2.mk_y (a b : ℕ) : (UVec2.mk a b).y = b := rfl

theorem mem_ite_nil {β : Type} {c : Prop} [Decidable c] {L : List β} {q : β} :
    q ∈ (if c then L else []) ↔ c ∧ q ∈ L := by
  split <;> simp [*]

theorem mem_ite_singleton {β : Type} {c : Prop} [Decidable c] {a q : β} :
    q ∈ (if c then [a] else []) ↔ c ∧ q = a := by
  split <;> simp [*]

namespace Matrix

variable {α : Type}

theorem mem_neighbours_no_diag {m : Matrix α} (hw : 0 < m.size.x)
    (hh : 0 < m.size.y) {p q : UVec2} :
    q ∈ m.neighbours_no_diag p ↔
      (0 < p.y ∧ q = ⟨p.x, p.y - 1⟩) ∨ (0 < p.x ∧ q = ⟨p.x - 1, p.y⟩) ∨
      (p.x + 1 < m.size.x ∧ q = ⟨p.x + 1, p.y⟩) ∨
      (p.y + 1 < m.size.y ∧ q = ⟨p.x, p.y + 1⟩) := by
  unfold neighbours_no_diag
  rw [u32sub1_of_pos hw, u32sub1_of_pos hh]
  have e3 : (p.x < m.size.x - 1) = (p.x + 1 < m.size.x) := propext (by omega)
  have e4 : (p.y < m.size.y - 1) = (p.y + 1 < m.size.y) := propext (by omega)
  simp only [List.mem_append, mem_ite_singleton]
  rw [e3, e4]
  tauto

theorem mem_neighbours {m : Matrix α} (hw : 0 < m.size.x) (hh : 0 < m.size.y)
    {p q : UVec2} :
    q ∈ m.neighbours p ↔
      (0 < p.y ∧ 0 < p.x ∧ q = ⟨p.x - 1, p.y - 1⟩) ∨
      (0 < p.y ∧ q = ⟨p.x, p.y - 1⟩) ∨
      (0 < p.y ∧ p.x + 1 < m.size.x ∧ q = ⟨p.x + 1, p.y - 1⟩) ∨
      (0 < p.x ∧ q = ⟨p.x - 1, p.y⟩) ∨
      (p.x + 1 < m.size.x ∧ q = ⟨p.x + 1, p.y⟩) ∨
      (p.y + 1 < m.size.y ∧ 0 < p.x ∧ q = ⟨p.x - 1, p.y + 1⟩) ∨
      (p.y + 1 < m.size.y ∧ q = ⟨p.x, p.y + 1⟩) ∨
      (p.y + 1 < m.size.y ∧ p.x + 1 < m.size.x ∧ q = ⟨p.x + 1, p.y + 1⟩) := by
  unfold neighbours
  rw [u32sub1_of_pos hw, u32sub1_of_pos hh]
  have e3 : (p.x < m.size.x - 1) = (p.x + 1 < m.size.x) := propext (by omega)
  have e4 : (p.y < m.size.y - 1) = (p.y + 1 < m.size.y) := propext (by omega)
  simp only [List.mem_append, mem_ite_nil, mem_ite_singleton,
    List.mem_singleton, and_or_left, and_assoc, or_assoc]
  rw [e3, e4]

/-- C7 counterexample: on a 1×1 grid the only cell is a corner, yet it has 0
cardinal neighbours, not 2. -/
theorem C7_counterexample :
    (Matrix.splat ⟨1, 1⟩ false).is_in_bounds ⟨0, 0⟩ ∧
    (Matrix.splat ⟨1, 1⟩ false).isCorner ⟨0, 0⟩ ∧
    ((Matrix.splat ⟨1, 1⟩ false).neighbours_no_diag ⟨0, 0⟩).length = 0 := by
  refine ⟨by decide, by decide, ?_⟩
  rfl

/-- C7 (amended): for every in-bounds `p` the cardinal-4 enumeration is the
north, west, east, south candidate list with exactly the directions omitted
whose coordinate would go below zero or reach the grid extent; every member is
in bounds and exactly one cardinal step from `p`; and on grids with both
dimensions at least 2 the count is 2 at a corner, 3 on an edge and 4 in the
interior. -/
theorem C7_cardinal_neighbours (m : Matrix α) (p : UVec2)
    (hp : m.is_in_bounds p) :
    m.neighbours_no_diag p =
      (if p.y ≠ 0 then [(⟨p.x, p.y - 1⟩ : UVec2)] else []) ++
      (if p.x ≠ 0 then [(⟨p.x - 1, p.y⟩ : UVec2)] else []) ++
      (if p.x + 1 < m.size.x then [(⟨p.x + 1, p.y⟩ : UVec2)] else []) ++
      (if p.y + 1 < m.size.y then [(⟨p.x, p.y + 1⟩ : UVec2)] else []) ∧
    (∀ q ∈ m.neighbours_no_diag p, m.is_in_bounds q ∧ manhattan p q = 1) ∧
    (2 ≤ m.size.x → 2 ≤ m.size.y →
      (m.isCorner p → (m.neighbours_no_diag p).length = 2) ∧
      (m.isEdge p → (m.neighbours_no_diag p).length = 3) ∧
      (m.isInterior p → (m.neighbours_no_diag p).length = 4)) := by
  obtain ⟨hx, hy⟩ := hp
  have hw : 0 < m.size.x := lt_of_le_of_lt (Nat.zero_le _) hx
  have hh : 0 < m.size.y := lt_of_le_of_lt (Nat.zero_le _) hy
  have e1 : (0 < p.y) = (p.y ≠ 0) := propext (by omega)
  have e2 : (0 < p.x) = (p.x ≠ 0) := propext (by omega)
  have e3 : (p.x < m.size.x - 1) = (p.x + 1 < m.size.x) := propext (by omega)
  have e4 : (p.y < m.size.y - 1) = (p.y + 1 < m.size.y) := propext (by omega)
  have hlist : m.neighbours_no_diag p =
      (if p.y ≠ 0 then [(⟨p.x, p.y - 1⟩ : UVec2)] else []) ++
      (if p.x ≠ 0 then [(⟨p.x - 1, p.y⟩ : UVec2)] else []) ++
      (if p.x + 1 < m.size.x then [(⟨p.x + 1, p.y⟩ : UVec2)] else []) ++
      (if p.y + 1 < m.size.y then [(⟨p.x, p.y + 1⟩ : UVec2)] else []) := by
    unfold neighbours_no_diag
    rw [u32sub1_of_pos hw, u32sub1_of_pos hh]
    simp only [e1, e2, e3, e4]
  refine ⟨hlist, ?_, ?_⟩
  · intro q hq
    rw [mem_neighbours_no_diag hw hh] at hq
    rcases hq with ⟨h, rfl⟩ | ⟨h, rfl⟩ | ⟨h, rfl⟩ | ⟨h, rfl⟩ <;>
      refine ⟨⟨?_, ?_⟩, ?_⟩ <;> simp only [manhattan] <;> omega
  · intro hw2 hh2
    rw [hlist]
    simp only [List.length_append, apply_ite List.length, List.length_singleton,
      List.length_nil]
    unfold isEdge isCorner isInterior onVerticalBorder onHorizontalBorder
    refine ⟨?_, ?_, ?_⟩ <;> intro hcls <;> split_ifs <;> omega

/-- C7 witness: the centre of a 3×3 grid is interior and has 4 cardinal
neighbours. -/
theorem C7_cardinal_neighbours_witness :
    ((Matrix.splat ⟨3, 3⟩ false).neighbours_no_diag ⟨1, 1⟩).length = 4 :=
  ((Matrix.C7_cardinal_neighbours (Matrix.splat ⟨3, 3⟩ false) ⟨1, 1⟩
      (by decide)).2.2 (by decide) (by decide)).2.2 (by decide)

/-- C9: for every in-bounds `p`, every cardinal-4 neighbour also appears in
the full-8 list; every full-8 member is in bounds, at Chebyshev distance 1
from `p`; and a diagonal member appears only when both of its contributing
cardinal steps stay on the grid. -/
theorem C9_full8_superset_of_cardinal (m : Matrix α) (p : UVec2)
    (hp : m.is_in_bounds p) :
    (∀ q ∈ m.neighbours_no_diag p, q ∈ m.neighbours p) ∧
    (∀ q ∈ m.neighbours p,
      m.is_in_bounds q ∧
      ¬ ((q.x : ℤ) - p.x = 0 ∧ (q.y : ℤ) - p.y = 0) ∧
      ((q.x : ℤ) - p.x).natAbs ≤ 1 ∧ ((q.y : ℤ) - p.y).natAbs ≤ 1 ∧
      ((q.x : ℤ) - p.x ≠ 0 ∧ (q.y : ℤ) - p.y ≠ 0 →
        ((q.x : ℤ) - p.x = -1 → 0 < p.x) ∧
        ((q.x : ℤ) - p.x = 1 → p.x + 1 < m.size.x) ∧
        ((q.y : ℤ) - p.y = -1 → 0 < p.y) ∧
        ((q.y : ℤ) - p.y = 1 → p.y + 1 < m.size.y))) := by
  obtain ⟨hx, hy⟩ := hp
  have hw : 0 < m.size.x := lt_of_le_of_lt (Nat.zero_le _) hx
  have hh : 0 < m.size.y := lt_of_le_of_lt (Nat.zero_le _) hy
  constructor
  · intro q hq
    rw [mem_neighbours_no_diag hw hh] at hq
    rw [mem_neighbours hw hh]
    rcases hq with ⟨h, rfl⟩ | ⟨h, rfl⟩ | ⟨h, rfl⟩ | ⟨h, rfl⟩
    · exact Or.inr (Or.inl ⟨h, rfl⟩)
    · exact Or.inr (Or.inr (Or.inr (Or.inl ⟨h, rfl⟩)))
    · exact Or.inr (Or.inr (Or.inr (Or.inr (Or.inl ⟨h, rfl⟩))))
    · exact Or.inr (Or.inr (Or.inr (Or.inr (Or.inr (Or.inr (Or.inl ⟨h, rfl⟩))))))
  · intro q hq
    rw [mem_neighbours hw hh] at hq
    unfold is_in_bounds
    rcases hq with ⟨h1, h2, rfl⟩ | ⟨h1, rfl⟩ | ⟨h1, h2, rfl⟩ | ⟨h1, rfl⟩ |
      ⟨h1, rfl⟩ | ⟨h1, h2, rfl⟩ | ⟨h1, rfl⟩ | ⟨h1, h2, rfl⟩ <;>
      simp only [UVec2.mk_x, UVec2.mk_y] <;> omega

/-- C9 witness on the centre of a 3×3 grid: the north cardinal neighbour of
the centre is also a full-8 neighbour. -/
theorem C9_full8_superset_of_cardinal_witness :
    (Matrix.splat ⟨3, 3⟩ false).is_in_bounds ⟨1, 1⟩ ∧
    (⟨1, 0⟩ : UVec2) ∈ (Matrix.splat ⟨3, 3⟩ false).neighbours ⟨1, 1⟩ :=
  ⟨by decide,
    (Matrix.C9_full8_superset_of_cardinal (Matrix.splat ⟨3, 3⟩ false) ⟨1, 1⟩
      (by decide)).1 ⟨1, 0⟩ (by decide)⟩

end Matrix

theorem wrap_i32_eq_emod (v M : ℤ) (hM : 0 < M) (hv : -1 ≤ v) :
    wrap_i32 v 0 M = v % M := by
  unfold wrap_i32
  simp only [sub_zero, add_zero]
  rcases (by omega : v = -1 ∨ 0 ≤ v) with rfl | hv0
  · rcases M with n | n
    · have hn : 0 < n := by
        simp only [Int.ofNat_eq_natCast] at hM
        exact_mod_cast hM
      have h1 : (-1 : ℤ).tmod (Int.ofNat n) = -(((1 % n : ℕ) : ℤ)) := rfl
      rw [h1]
      have hmod : 1 % n < n := Nat.mod_lt 1 hn
      have h2 : (0 : ℤ) ≤ -(((1 % n : ℕ) : ℤ)) + Int.ofNat n := by
        simp only [Int.ofNat_eq_natCast]
        omega
      rw [Int.tmod_eq_emod h2 (by omega)]
      rcases Nat.lt_or_ge n 2 with hn2 | hn2
      · have hn1 : n = 1 := by omega
        subst hn1
        rfl
      · have h3 : 1 % n = 1 := Nat.mod_eq_of_lt hn2
        rw [h3]
        simp only [Nat.cast_one, Int.ofNat_eq_natCast]
        have h4 : (-1 + (n : ℤ)) % (n : ℤ) = (-1) % (n : ℤ) := Int.add_emod_self
        exact h4
    · have := Int.negSucc_lt_zero n
      exact absurd hM (by omega)
  · rw [Int.tmod_eq_emod hv0 hM.le]
    have h2 : 0 ≤ v % M + M := by
      have := Int.emod_nonneg v (by omega : M ≠ 0)
      omega
    rw [Int.tmod_eq_emod h2 hM.le, Int.add_emod_self,
      Int.emod_emod_of_dvd v dvd_rfl]

namespace Matrix

variable {α : Type}

theorem wrapNeighbour_eq (m : Matrix α) (p : UVec2) (d : ℤ × ℤ)
    (hd1 : -1 ≤ d.1) (hd2 : -1 ≤ d.2) (hw : 0 < m.size.x) (hh : 0 < m.size.y) :
    m.wrapNeighbour p d =
      ⟨(((p.x : ℤ) + d.1) % (max (m.size.x : ℤ) (m.size.y : ℤ))).toNat,
       (((p.y : ℤ) + d.2) % (max (m.size.x : ℤ) (m.size.y : ℤ))).toNat⟩ := by
  unfold wrapNeighbour
  dsimp only
  have hM : 0 < max (m.size.x : ℤ) (m.size.y : ℤ) :=
    lt_max_of_lt_left (by exact_mod_cast hw)
  rw [wrap_i32_eq_emod _ _ hM (by omega), wrap_i32_eq_emod _ _ hM (by omega)]

/-- C8: both wrapping neighbour enumerations wrap each coordinate modulo the
larger of width and height, applied to both axes; on square grids every
wrapped neighbour is therefore in bounds, while on the non-square 2×5 grid
the enumeration around `(1,2)` yields a position outside the width. -/
theorem C8_wrapping_modulus (m : Matrix α) (p : UVec2)
    (hp : m.is_in_bounds p) :
    (m.neighbours_no_diag_wrapping p = wrapDirs4.map (fun d =>
        (⟨(((p.x : ℤ) + d.1) % (max (m.size.x : ℤ) (m.size.y : ℤ))).toNat,
          (((p.y : ℤ) + d.2) % (max (m.size.x : ℤ) (m.size.y : ℤ))).toNat⟩ :
          UVec2)) ∧
     m.neighbours_wrapping p = wrapDirs8.map (fun d =>
        (⟨(((p.x : ℤ) + d.1) % (max (m.size.x : ℤ) (m.size.y : ℤ))).toNat,
          (((p.y : ℤ) + d.2) % (max (m.size.x : ℤ) (m.size.y : ℤ))).toNat⟩ :
          UVec2))) ∧
    (m.size.x = m.size.y →
      (∀ q ∈ m.neighbours_no_diag_wrapping p, m.is_in_bounds q) ∧
      (∀ q ∈ m.neighbours_wrapping p, m.is_in_bounds q)) ∧
    (∃ q ∈ (Matrix.splat ⟨2, 5⟩ false).neighbours_no_diag_wrapping ⟨1, 2⟩,
      ¬ (Matrix.splat ⟨2, 5⟩ false).is_in_bounds q) := by
  obtain ⟨hx, hy⟩ := hp
  have hw : 0 < m.size.x := lt_of_le_of_lt (Nat.zero_le _) hx
  have hh : 0 < m.size.y := lt_of_le_of_lt (Nat.zero_le _) hy
  have hM : 0 < max (m.size.x : ℤ) (m.size.y : ℤ) :=
    lt_max_of_lt_left (by exact_mod_cast hw)
  have hchar4 : m.neighbours_no_diag_wrapping p = wrapDirs4.map (fun d =>
      (⟨(((p.x : ℤ) + d.1) % (max (m.size.x : ℤ) (m.size.y : ℤ))).toNat,
        (((p.y : ℤ) + d.2) % (max (m.size.x : ℤ) (m.size.y : ℤ))).toNat⟩ :
        UVec2)) := by
    unfold neighbours_no_diag_wrapping
    refine List.map_congr_left ?_
    intro d hd
    simp only [wrapDirs4, List.mem_cons, List.not_mem_nil, or_false] at hd
    rcases hd with rfl | rfl | rfl | rfl <;>
      exact m.wrapNeighbour_eq p _ (by decide) (by decide) hw hh
  have hchar8 : m.neighbours_wrapping p = wrapDirs8.map (fun d =>
      (⟨(((p.x : ℤ) + d.1) % (max (m.size.x : ℤ) (m.size.y : ℤ))).toNat,
        (((p.y : ℤ) + d.2) % (max (m.size.x : ℤ) (m.size.y : ℤ))).toNat⟩ :
        UVec2)) := by
    unfold neighbours_wrapping
    refine List.map_congr_left ?_
    intro d hd
    simp only [wrapDirs8, List.mem_cons, List.not_mem_nil, or_false] at hd
    rcases hd with rfl | rfl | rfl | rfl | rfl | rfl | rfl | rfl <;>
      exact m.wrapNeighbour_eq p _ (by decide) (by decide) hw hh
  have hbound : m.size.x = m.size.y → ∀ (a b : ℤ),
      m.is_in_bounds
        ⟨((a % (max (m.size.x : ℤ) (m.size.y : ℤ))).toNat),
         ((b % (max (m.size.x : ℤ) (m.size.y : ℤ))).toNat)⟩ := by
    intro hsq a b
    have hmax : max (m.size.x : ℤ) (m.size.y : ℤ) = (m.size.x : ℤ) := by
      rw [hsq]
      exact max_self _
    have h0a : 0 ≤ a % (max (m.size.x : ℤ) (m.size.y : ℤ)) :=
      Int.emod_nonneg a (by omega)
    have h1a : a % (max (m.size.x : ℤ) (m.size.y : ℤ)) <
        max (m.size.x : ℤ) (m.size.y : ℤ) := Int.emod_lt_of_pos a hM
    have h0b : 0 ≤ b % (max (m.size.x : ℤ) (m.size.y : ℤ)) :=
      Int.emod_nonneg b (by omega)
    have h1b : b % (max (m.size.x : ℤ) (m.size.y : ℤ)) <
        max (m.size.x : ℤ) (m.size.y : ℤ) := Int.emod_lt_of_pos b hM
    constructor
    · simp only [UVec2.mk_x]
      rw [hmax] at h0a h1a ⊢
      omega
    · simp only [UVec2.mk_y]
      rw [hmax] at h0b h1b ⊢
      omega
  refine ⟨⟨hchar4, hchar8⟩, ?_, ?_⟩
  · intro hsq
    constructor
    · intro q hq
      rw [hchar4] at hq
      obtain ⟨d, _, rfl⟩ := List.mem_map.mp hq
      exact hbound hsq _ _
    · intro q hq
      rw [hchar8] at hq
      obtain ⟨d, _, rfl⟩ := List.mem_map.mp hq
      exact hbound hsq _ _
  · decide

/-- C8 witness on the centre of a square 3×3 grid: the wrapped top-left
neighbour `(0,0)` of the centre is in bounds. -/
theorem C8_wrapping_modulus_witness :
    (Matrix.splat ⟨3, 3⟩ false).is_in_bounds ⟨1, 1⟩ ∧
    (Matrix.splat ⟨3, 3⟩ false).is_in_bounds ⟨0, 0⟩ :=
  ⟨by decide,
    (((Matrix.C8_wrapping_modulus (Matrix.splat ⟨3, 3⟩ false) ⟨1, 1⟩
      (by decide)).2.1) rfl).2 ⟨0, 0⟩ (by decide)⟩

end Matrix

theorem getD_replicate {β : Type} (d : β) (n i : ℕ) :
    (List.replicate n d).getD i d = d := by
  induction n generalizing i with
  | zero => rfl
  | succ n ih =>
    cases i with
    | zero => rfl
    | succ i => exact ih i

namespace Matrix

variable {α : Type}

theorem retrace_path_replicate (m : Matrix α) (p : UVec2) :
    m.retrace_path (List.replicate m.element_count uvec2Max) p = [p] := by
  have h1 : m.retraceLoop (List.replicate m.element_count uvec2Max)
      (m.element_count + 1) p [p] = [p] := by
    simp only [retraceLoop, getD_replicate, if_true]
  unfold retrace_path
  rw [h1]
  rfl

theorem validPos_card (m : Matrix α) : m.validPos.card = m.element_count := by
  unfold validPos element_count
  rw [Finset.card_image_of_injective _ (fun a b hab => ?_), Finset.card_product,
    Finset.card_range, Finset.card_range]
  have hx := congrArg UVec2.x hab
  have hy := congrArg UVec2.y hab
  simp only [UVec2.mk_x, UVec2.mk_y] at hx hy
  exact Prod.ext hx hy

theorem mem_validPos {m : Matrix α} {p : UVec2} :
    p ∈ m.validPos ↔ m.is_in_bounds p := by
  unfold validPos is_in_bounds
  simp only [Finset.mem_image, Finset.mem_product, Finset.mem_range]
  constructor
  · rintro ⟨⟨a, b⟩, ⟨ha, hb⟩, rfl⟩
    exact ⟨ha, hb⟩
  · rintro ⟨hx, hy⟩
    exact ⟨(p.x, p.y), ⟨hx, hy⟩, rfl⟩

theorem pos_to_idx_lt {m : Matrix α} {p : UVec2} (hp : m.is_in_bounds p) :
    m.pos_to_idx p < m.element_count := by
  obtain ⟨hx, hy⟩ := hp
  unfold pos_to_idx element_count
  calc p.y * m.size.x + p.x < p.y * m.size.x + m.size.x := by omega
    _ = (p.y + 1) * m.size.x := by ring
    _ ≤ m.size.y * m.size.x := Nat.mul_le_mul_right _ (by omega)
    _ = m.size.x * m.size.y := Nat.mul_comm _ _

theorem pos_to_idx_inj {m : Matrix α} {p q : UVec2} (hp : m.is_in_bounds p)
    (hq : m.is_in_bounds q) (h : m.pos_to_idx p = m.pos_to_idx q) : p = q := by
  obtain ⟨hpx, hpy⟩ := hp
  obtain ⟨hqx, hqy⟩ := hq
  unfold pos_to_idx at h
  have hw : 0 < m.size.x := lt_of_le_of_lt (Nat.zero_le _) hpx
  have hx : p.x = q.x := by
    have h1 := congrArg (· % m.size.x) h
    simpa [Nat.mul_add_mod, Nat.mul_comm, Nat.add_mul_mod_self_right,
      Nat.mod_eq_of_lt hpx, Nat.mod_eq_of_lt hqx] using h1
  have hy : p.y = q.y := by
    have h1 := congrArg (· / m.size.x) h
    simp only at h1
    rw [Nat.mul_comm p.y, Nat.mul_comm q.y, Nat.mul_add_div hw,
      Nat.mul_add_div hw, Nat.div_eq_of_lt hpx, Nat.div_eq_of_lt hqx] at h1
    omega
  cases p
  cases q
  simp_all

theorem neighbours_no_diag_in_bounds {m : Matrix α} {p q : UVec2}
    (hp : m.is_in_bounds p) (hq : q ∈ m.neighbours_no_diag p) :
    m.is_in_bounds q := by
  obtain ⟨hx, hy⟩ := hp
  have hw : 0 < m.size.x := lt_of_le_of_lt (Nat.zero_le _) hx
  have hh : 0 < m.size.y := lt_of_le_of_lt (Nat.zero_le _) hy
  rw [mem_neighbours_no_diag hw hh] at hq
  unfold is_in_bounds
  rcases hq with ⟨h, rfl⟩ | ⟨h, rfl⟩ | ⟨h, rfl⟩ | ⟨h, rfl⟩ <;>
    simp only [UVec2.mk_x, UVec2.mk_y] <;> omega

theorem bfsInsertNeighbours_eq (m : Matrix α) (pos : UVec2)
    (queue : List UVec2) (visited : Finset UVec2) :
    m.bfsInsertNeighbours pos queue visited =
      bfsInsertFold (m.neighbours_no_diag pos) queue visited := rfl

theorem bfsInsertFold_cons (n : UVec2) (L queue : List UVec2)
    (visited : Finset UVec2) :
    bfsInsertFold (n :: L) queue visited =
      if n ∈ visited then bfsInsertFold L queue visited
      else bfsInsertFold L (queue ++ [n]) (insert n visited) := by
  unfold bfsInsertFold
  by_cases h : n ∈ visited <;> simp [List.foldl_cons, h]

/-- Everything the BFS loops need about one expansion fold: the queue grows by
exactly the fresh (previously unvisited) candidates, the visited set becomes
`visited ∪ L`, every fresh candidate ends up queued, and queue length and
visited cardinality grow in lockstep. -/
theorem bfsInsertFold_spec (L : List UVec2) :
    ∀ (queue : List UVec2) (visited : Finset UVec2),
    (∃ fresh : List UVec2,
        (bfsInsertFold L queue visited).1 = queue ++ fresh ∧ fresh.Nodup ∧
        ∀ x ∈ fresh, x ∈ L ∧ x ∉ visited) ∧
    (∀ x, x ∈ (bfsInsertFold L queue visited).2 ↔ x ∈ visited ∨ x ∈ L) ∧
    (∀ x ∈ L, x ∉ visited → x ∈ (bfsInsertFold L queue visited).1) ∧
    (bfsInsertFold L queue visited).1.length + visited.card
      = queue.length + (bfsInsertFold L queue visited).2.card := by
  induction L with
  | nil =>
    intro queue visited
    refine ⟨⟨[], by simp [bfsInsertFold], List.nodup_nil, fun x hx => by
      simp at hx⟩, by simp [bfsInsertFold], by simp, by simp [bfsInsertFold]⟩
  | cons n L ih =>
    intro queue visited
    rw [bfsInsertFold_cons]
    by_cases hn : n ∈ visited
    · simp only [if_pos hn]
      obtain ⟨⟨fresh, hf1, hf2, hf3⟩, h2, h3, h4⟩ := ih queue visited
      refine ⟨⟨fresh, hf1, hf2, fun x hx =>
        ⟨List.mem_cons_of_mem _ (hf3 x hx).1, (hf3 x hx).2⟩⟩, ?_, ?_, h4⟩
      · intro x
        rw [h2 x]
        constructor
        · rintro (h | h)
          · exact Or.inl h
          · exact Or.inr (List.mem_cons_of_mem _ h)
        · rintro (h | h)
          · exact Or.inl h
          · rcases List.mem_cons.mp h with rfl | h
            · exact Or.inl hn
            · exact Or.inr h
      · intro x hx hxv
        rcases List.mem_cons.mp hx with rfl | hxL
        · exact absurd hn hxv
        · exact h3 x hxL hxv
    · simp only [if_neg hn]
      obtain ⟨⟨fresh, hf1, hf2, hf3⟩, h2, h3, h4⟩ := ih (queue ++ [n])
        (insert n visited)
      refine ⟨⟨n :: fresh, ?_, ?_, ?_⟩, ?_, ?_, ?_⟩
      · rw [hf1]; simp
      · exact List.nodup_cons.mpr
          ⟨fun hmem => (hf3 n hmem).2 (Finset.mem_insert_self n visited), hf2⟩
      · intro x hx
        rcases List.mem_cons.mp hx with rfl | hx
        · exact ⟨List.mem_cons_self _ _, hn⟩
        · obtain ⟨hxL, hxv⟩ := hf3 x hx
          exact ⟨List.mem_cons_of_mem _ hxL,
            fun hv => hxv (Finset.mem_insert_of_mem hv)⟩
      · intro x
        rw [h2 x]
        simp only [Finset.mem_insert, List.mem_cons]
        tauto
      · intro x hx hxv
        rcases List.mem_cons.mp hx with rfl | hxL
        · rw [hf1]; simp
        · by_cases hx2 : x ∈ insert n visited
          · rcases Finset.mem_insert.mp hx2 with rfl | hx2
            · rw [hf1]; simp
            · exact absurd hx2 hxv
          · exact h3 x hxL hx2
      · have h5 := Finset.card_insert_of_not_mem hn
        have h6 : (queue ++ [n]).length = queue.length + 1 := by simp
        omega

/-- A set of in-bounds positions has at most `element_count` members. -/
theorem visited_card_le {m : Matrix α} {visited : Finset UVec2}
    (h : ∀ x ∈ visited, m.is_in_bounds x) : visited.card ≤ m.element_count := by
  rw [← m.validPos_card]
  exact Finset.card_le_card fun x hx => mem_validPos.mpr (h x hx)

/-- `bfsLoop` returns exactly the first position of the dequeue order that
satisfies the predicate, paired with its stored value. -/
theorem bfsLoop_eq_find [Inhabited α] (m : Matrix α)
    (searchFn : α → UVec2 → Bool) :
    ∀ (fuel : ℕ) (queue : List UVec2) (visited : Finset UVec2),
    m.bfsLoop searchFn fuel queue visited =
      ((m.bfsOrderLoop fuel queue visited).find?
        (fun p => searchFn (m.get p) p)).map (fun p => (p, m.get p)) := by
  intro fuel
  induction fuel with
  | zero => intro queue visited; rfl
  | succ fuel ih =>
    intro queue visited
    cases queue with
    | nil => rfl
    | cons pos rest =>
      by_cases h : searchFn (m.get pos) pos = true
      · simp only [bfsLoop, bfsOrderLoop, if_pos h]
        rw [List.find?_cons_of_pos _ (by simpa using h)]
        rfl
      · simp only [bfsLoop, bfsOrderLoop, if_neg h]
        rw [List.find?_cons_of_neg _ (by simpa using h)]
        exact ih _ _

/-- Every cell gated-reachable from a member of a neighbour-closed set is in
the set. -/
theorem bfs_multi_closure [Inhabited α] (m : Matrix α)
    (searchFn : α → UVec2 → Bool) (seed : UVec2) (visited : Finset UVec2)
    (hclo : ∀ x ∈ visited, searchFn (m.get x) x = true →
      ∀ nb ∈ m.neighbours_no_diag x, nb ∈ visited)
    (hseed : seed ∈ visited) :
    ∀ p, m.GatedReaches searchFn seed p → p ∈ visited := by
  intro p hp
  unfold GatedReaches at hp
  induction hp with
  | refl => exact hseed
  | tail h1 h2 ih =>
    have h2' : searchFn (m.get _) _ = true ∧ _ ∈ m.neighbours_no_diag _ := h2
    exact hclo _ ih h2'.1 _ h2'.2

/-- Master invariant lemma for the exploration order of `bfs`: from a
well-formed frontier state, the future dequeue order is duplicate-free,
consists of reachable cells, contains every queued cell, and every cardinal
neighbour of a dequeued cell is either dequeued as well or was already
processed before the state was reached. -/
theorem bfsOrderLoop_spec (m : Matrix α) (start : UVec2) :
    ∀ (fuel : ℕ) (queue : List UVec2) (visited : Finset UVec2),
    queue.Nodup →
    (∀ x ∈ queue, x ∈ visited) →
    (∀ x ∈ visited, m.is_in_bounds x ∧ m.Reaches start x) →
    queue.length + m.element_count ≤ fuel + visited.card →
    (m.bfsOrderLoop fuel queue visited).Nodup ∧
    (∀ x ∈ m.bfsOrderLoop fuel queue visited, x ∈ queue ∨ x ∉ visited) ∧
    (∀ x ∈ m.bfsOrderLoop fuel queue visited, m.Reaches start x) ∧
    (∀ x ∈ queue, x ∈ m.bfsOrderLoop fuel queue visited) ∧
    (∀ x ∈ m.bfsOrderLoop fuel queue visited, ∀ nb ∈ m.neighbours_no_diag x,
      nb ∈ m.bfsOrderLoop fuel queue visited ∨ (nb ∈ visited ∧ nb ∉ queue)) := by
  intro fuel
  induction fuel with
  | zero =>
    intro queue visited hq hqv hvis hfuel
    have hcard := visited_card_le (m := m) fun x hx => (hvis x hx).1
    cases queue with
    | cons a l => exact absurd hfuel (by simp only [List.length_cons]; omega)
    | nil =>
      exact ⟨by simp [bfsOrderLoop], by simp [bfsOrderLoop],
        by simp [bfsOrderLoop], by simp, by simp [bfsOrderLoop]⟩
  | succ fuel ih =>
    intro queue visited hq hqv hvis hfuel
    cases queue with
    | nil =>
      exact ⟨by simp [bfsOrderLoop], by simp [bfsOrderLoop],
        by simp [bfsOrderLoop], by simp, by simp [bfsOrderLoop]⟩
    | cons pos rest =>
      have hposvis := hqv pos (List.mem_cons_self _ _)
      have hposb := (hvis pos hposvis).1
      obtain ⟨⟨fresh, hf1, hf2, hf3⟩, h2, h3, h4⟩ :=
        bfsInsertFold_spec (m.neighbours_no_diag pos) rest visited
      obtain ⟨qv, hqveq⟩ : ∃ qv, bfsInsertFold (m.neighbours_no_diag pos) rest
          visited = qv := ⟨_, rfl⟩
      rw [hqveq] at hf1 h2 h3 h4
      have hstep : m.bfsOrderLoop (fuel + 1) (pos :: rest) visited =
          pos :: m.bfsOrderLoop fuel qv.1 qv.2 := by
        rw [← hqveq]; rfl
      rw [hstep]
      have hq' : qv.1.Nodup := by
        rw [hf1]
        exact List.nodup_append.mpr ⟨hq.of_cons, hf2,
          fun a ha hb => (hf3 a hb).2 (hqv a (List.mem_cons_of_mem _ ha))⟩
      have hqv' : ∀ x ∈ qv.1, x ∈ qv.2 := by
        intro x hx
        rw [hf1] at hx
        rcases List.mem_append.mp hx with hx | hx
        · exact (h2 x).mpr (Or.inl (hqv x (List.mem_cons_of_mem _ hx)))
        · exact (h2 x).mpr (Or.inr (hf3 x hx).1)
      have hvis' : ∀ x ∈ qv.2, m.is_in_bounds x ∧ m.Reaches start x := by
        intro x hx
        rcases (h2 x).mp hx with hx | hx
        · exact hvis x hx
        · exact ⟨m.neighbours_no_diag_in_bounds hposb hx,
            Relation.ReflTransGen.tail (hvis pos hposvis).2 hx⟩
      have hfuel' : qv.1.length + m.element_count ≤ fuel + qv.2.card := by
        simp only [List.length_cons] at hfuel
        omega
      obtain ⟨N2, O2, O3, O4, O5⟩ := ih qv.1 qv.2 hq' hqv' hvis' hfuel'
      have hposq : pos ∉ qv.1 := by
        rw [hf1]
        intro hmem
        rcases List.mem_append.mp hmem with hmem | hmem
        · exact (List.nodup_cons.mp hq).1 hmem
        · exact (hf3 pos hmem).2 hposvis
      refine ⟨?_, ?_, ?_, ?_, ?_⟩
      · refine List.nodup_cons.mpr ⟨fun hmem => ?_, N2⟩
        rcases O2 pos hmem with h | h
        · exact hposq h
        · exact h ((h2 pos).mpr (Or.inl hposvis))
      · intro x hx
        rcases List.mem_cons.mp hx with rfl | hx
        · exact Or.inl (List.mem_cons_self _ _)
        · rcases O2 x hx with h | h
          · rw [hf1] at h
            rcases List.mem_append.mp h with h | h
            · exact Or.inl (List.mem_cons_of_mem _ h)
            · exact Or.inr (hf3 x h).2
          · exact Or.inr fun hv => h ((h2 x).mpr (Or.inl hv))
      · intro x hx
        rcases List.mem_cons.mp hx with rfl | hx
        · exact (hvis _ hposvis).2
        · exact O3 x hx
      · intro x hx
        rcases List.mem_cons.mp hx with rfl | hx
        · exact List.mem_cons_self _ _
        · refine List.mem_cons_of_mem _ (O4 x ?_)
          rw [hf1]
          exact List.mem_append.mpr (Or.inl hx)
      · intro x hx nb hnb
        rcases List.mem_cons.mp hx with rfl | hx
        · by_cases hnbq : nb ∈ qv.1
          · exact Or.inl (List.mem_cons_of_mem _ (O4 nb hnbq))
          · have hnbvis : nb ∈ visited := by
              by_contra hcon
              exact hnbq (h3 nb hnb hcon)
            by_cases hnp : nb = x
            · exact Or.inl (by rw [hnp]; exact List.mem_cons_self _ _)
            · refine Or.inr ⟨hnbvis, fun hmem => ?_⟩
              rcases List.mem_cons.mp hmem with h | h
              · exact hnp h
              · exact hnbq (by rw [hf1]; exact List.mem_append.mpr (Or.inl h))
        · rcases O5 x hx nb hnb with h | ⟨hv, hq2⟩
          · exact Or.inl (List.mem_cons_of_mem _ h)
          · have hnbvis : nb ∈ visited := by
              rcases (h2 nb).mp hv with h | h
              · exact h
              · by_contra hcon
                exact hq2 (h3 nb h hcon)
            by_cases hnp : nb = pos
            · exact Or.inl (by rw [hnp]; exact List.mem_cons_self _ _)
            · refine Or.inr ⟨hnbvis, fun hmem => ?_⟩
              rcases List.mem_cons.mp hmem with h | h
              · exact hnp h
              · exact hq2 (by rw [hf1]; exact List.mem_append.mpr (Or.inl h))

/-- Termination-state argument for `bfs_multi`: once the queue is empty, the
accumulated `found` list is exactly the matching region. -/
theorem bfs_multi_final [Inhabited α] (m : Matrix α)
    (searchFn : α → UVec2 → Bool) (seed : UVec2) (visited : Finset UVec2)
    (found : List (UVec2 × α))
    (hvis : ∀ x ∈ visited, m.is_in_bounds x ∧ m.GatedReaches searchFn seed x)
    (hclo : ∀ x ∈ visited, searchFn (m.get x) x = true →
      (∀ nb ∈ m.neighbours_no_diag x, nb ∈ visited) ∧ x ∈ found.map Prod.fst)
    (hfound : ∀ pr ∈ found, pr.2 = m.get pr.1 ∧ pr.1 ∈ visited ∧
      searchFn (m.get pr.1) pr.1 = true)
    (hnd : (found.map Prod.fst).Nodup)
    (hseed : seed ∈ visited) :
    (found.map Prod.fst).Nodup ∧
    (∀ pr ∈ found, pr.2 = m.get pr.1 ∧ m.InMatchRegion searchFn seed pr.1) ∧
    (∀ p, m.InMatchRegion searchFn seed p → p ∈ found.map Prod.fst) := by
  refine ⟨hnd, ?_, ?_⟩
  · intro pr hpr
    obtain ⟨h1, h2, h3⟩ := hfound pr hpr
    exact ⟨h1, (hvis pr.1 h2).2, h3⟩
  · intro p hp
    have hmem := m.bfs_multi_closure searchFn seed visited
      (fun x hx hMx => (hclo x hx hMx).1) hseed p hp.1
    exact (hclo p hmem hp.2).2

/-- Master invariant lemma for `bfs_multiLoop`: from a well-formed frontier
state, the final `found` list is duplicate-free (by position), stores the
value of each found cell, and its positions are exactly the gated matching
region of the seed. -/
theorem bfs_multiLoop_spec [Inhabited α] (m : Matrix α)
    (searchFn : α → UVec2 → Bool) (seed : UVec2) :
    ∀ (fuel : ℕ) (queue : List UVec2) (visited : Finset UVec2)
      (found : List (UVec2 × α)),
    queue.Nodup →
    (∀ x ∈ queue, x ∈ visited) →
    (∀ x ∈ visited, m.is_in_bounds x ∧ m.GatedReaches searchFn seed x) →
    (∀ x ∈ visited, x ∉ queue → searchFn (m.get x) x = true →
      (∀ nb ∈ m.neighbours_no_diag x, nb ∈ visited) ∧
      x ∈ found.map Prod.fst) →
    (∀ pr ∈ found, pr.2 = m.get pr.1 ∧ pr.1 ∈ visited ∧ pr.1 ∉ queue ∧
      searchFn (m.get pr.1) pr.1 = true) →
    (found.map Prod.fst).Nodup →
    seed ∈ visited →
    queue.length + m.element_count ≤ fuel + visited.card →
    ((m.bfs_multiLoop searchFn fuel queue visited found).map Prod.fst).Nodup ∧
    (∀ pr ∈ m.bfs_multiLoop searchFn fuel queue visited found,
      pr.2 = m.get pr.1 ∧ m.InMatchRegion searchFn seed pr.1) ∧
    (∀ p, m.InMatchRegion searchFn seed p →
      p ∈ (m.bfs_multiLoop searchFn fuel queue visited found).map Prod.fst) := by
  intro fuel
  induction fuel with
  | zero =>
    intro queue visited found hq hqv hvis hclo hfound hnd hseed hfuel
    have hcard := visited_card_le (m := m) fun x hx => (hvis x hx).1
    cases queue with
    | cons a l => exact absurd hfuel (by simp only [List.length_cons]; omega)
    | nil =>
      have hres : m.bfs_multiLoop searchFn 0 [] visited found = found := rfl
      rw [hres]
      exact m.bfs_multi_final searchFn seed visited found hvis
        (fun x hx hMx => hclo x hx (by simp) hMx)
        (fun pr hpr => ⟨(hfound pr hpr).1, (hfound pr hpr).2.1,
          (hfound pr hpr).2.2.2⟩) hnd hseed
  | succ fuel ih =>
    intro queue visited found hq hqv hvis hclo hfound hnd hseed hfuel
    cases queue with
    | nil =>
      have hres : m.bfs_multiLoop searchFn (fuel + 1) [] visited found =
        found := rfl
      rw [hres]
      exact m.bfs_multi_final searchFn seed visited found hvis
        (fun x hx hMx => hclo x hx (by simp) hMx)
        (fun pr hpr => ⟨(hfound pr hpr).1, (hfound pr hpr).2.1,
          (hfound pr hpr).2.2.2⟩) hnd hseed
    | cons pos rest =>
      have hposvis := hqv pos (List.mem_cons_self _ _)
      have hposb := (hvis pos hposvis).1
      by_cases hm : searchFn (m.get pos) pos = true
      · obtain ⟨⟨fresh, hf1, hf2, hf3⟩, h2, h3, h4⟩ :=
          bfsInsertFold_spec (m.neighbours_no_diag pos) rest visited
        obtain ⟨qv, hqveq⟩ : ∃ qv, bfsInsertFold (m.neighbours_no_diag pos) rest
            visited = qv := ⟨_, rfl⟩
        rw [hqveq] at hf1 h2 h3 h4
        have hstep : m.bfs_multiLoop searchFn (fuel + 1) (pos :: rest) visited
            found = m.bfs_multiLoop searchFn fuel qv.1 qv.2
              (found ++ [(pos, m.get pos)]) := by
          rw [← hqveq]
          simp only [bfs_multiLoop, if_pos hm]
          rfl
        rw [hstep]
        have hq' : qv.1.Nodup := by
          rw [hf1]
          exact List.nodup_append.mpr ⟨hq.of_cons, hf2,
            fun a ha hb => (hf3 a hb).2 (hqv a (List.mem_cons_of_mem _ ha))⟩
        have hqv' : ∀ x ∈ qv.1, x ∈ qv.2 := by
          intro x hx
          rw [hf1] at hx
          rcases List.mem_append.mp hx with hx | hx
          · exact (h2 x).mpr (Or.inl (hqv x (List.mem_cons_of_mem _ hx)))
          · exact (h2 x).mpr (Or.inr (hf3 x hx).1)
        have hvis' : ∀ x ∈ qv.2,
            m.is_in_bounds x ∧ m.GatedReaches searchFn seed x := by
          intro x hx
          rcases (h2 x).mp hx with hx | hx
          · exact hvis x hx
          · exact ⟨m.neighbours_no_diag_in_bounds hposb hx,
              Relation.ReflTransGen.tail (hvis pos hposvis).2 ⟨hm, hx⟩⟩
        have hposq : pos ∉ qv.1 := by
          rw [hf1]
          intro hmem
          rcases List.mem_append.mp hmem with hmem | hmem
          · exact (List.nodup_cons.mp hq).1 hmem
          · exact (hf3 pos hmem).2 hposvis
        have hclo' : ∀ x ∈ qv.2, x ∉ qv.1 → searchFn (m.get x) x = true →
            (∀ nb ∈ m.neighbours_no_diag x, nb ∈ qv.2) ∧
            x ∈ (found ++ [(pos, m.get pos)]).map Prod.fst := by
          intro x hx hxq hMx
          by_cases hxp : x = pos
          · refine ⟨fun nb hnb => (h2 nb).mpr (Or.inr (by rw [← hxp]; exact
              hnb)), ?_⟩
            rw [List.map_append]
            exact List.mem_append.mpr (Or.inr (by simp [hxp]))
          · have hxvis : x ∈ visited := by
              rcases (h2 x).mp hx with h | h
              · exact h
              · by_contra hcon
                exact hxq (h3 x h hcon)
            have hxrest : x ∉ rest := fun hr =>
              hxq (by rw [hf1]; exact List.mem_append.mpr (Or.inl hr))
            have hxqueue : x ∉ pos :: rest := fun hmem => by
              rcases List.mem_cons.mp hmem with h | h
              · exact hxp h
              · exact hxrest h
            obtain ⟨hnbs, hkey⟩ := hclo x hxvis hxqueue hMx
            refine ⟨fun nb hnb => (h2 nb).mpr (Or.inl (hnbs nb hnb)), ?_⟩
            rw [List.map_append]
            exact List.mem_append.mpr (Or.inl hkey)
        have hfound' : ∀ pr ∈ found ++ [(pos, m.get pos)],
            pr.2 = m.get pr.1 ∧ pr.1 ∈ qv.2 ∧ pr.1 ∉ qv.1 ∧
            searchFn (m.get pr.1) pr.1 = true := by
          intro pr hpr
          rcases List.mem_append.mp hpr with hpr | hpr
          · obtain ⟨hp1, hp2, hp3, hp4⟩ := hfound pr hpr
            refine ⟨hp1, (h2 pr.1).mpr (Or.inl hp2), fun hmem => ?_, hp4⟩
            rw [hf1] at hmem
            rcases List.mem_append.mp hmem with h | h
            · exact hp3 (List.mem_cons_of_mem _ h)
            · exact (hf3 pr.1 h).2 hp2
          · obtain rfl : pr = (pos, m.get pos) := List.mem_singleton.mp hpr
            exact ⟨rfl, (h2 pos).mpr (Or.inl hposvis), hposq, hm⟩
        have hnd' : ((found ++ [(pos, m.get pos)]).map Prod.fst).Nodup := by
          simp only [List.map_append, List.map_cons, List.map_nil]
          refine List.nodup_append.mpr
            ⟨hnd, List.nodup_singleton _, fun a ha hb => ?_⟩
          rw [List.mem_singleton] at hb
          subst hb
          obtain ⟨pr, hpr, hpr2⟩ := List.mem_map.mp ha
          exact (hfound pr hpr).2.2.1
            (by rw [hpr2]; exact List.mem_cons_self _ _)
        have hfuel' : qv.1.length + m.element_count ≤ fuel + qv.2.card := by
          simp only [List.length_cons] at hfuel
          omega
        exact ih qv.1 qv.2 (found ++ [(pos, m.get pos)]) hq' hqv' hvis' hclo'
          hfound' hnd' ((h2 seed).mpr (Or.inl hseed)) hfuel'
      · have hstep : m.bfs_multiLoop searchFn (fuel + 1) (pos :: rest) visited
            found = m.bfs_multiLoop searchFn fuel rest visited found := by
          simp only [bfs_multiLoop, if_neg hm]
        rw [hstep]
        refine ih rest visited found hq.of_cons
          (fun x hx => hqv x (List.mem_cons_of_mem _ hx)) hvis ?_ ?_ hnd hseed
          ?_
        · intro x hx hxrest hMx
          by_cases hxp : x = pos
          · exact absurd (hxp ▸ hMx) hm
          · have hxq : x ∉ pos :: rest := fun hmem => by
              rcases List.mem_cons.mp hmem with h | h
              · exact hxp h
              · exact hxrest h
            exact hclo x hx hxq hMx
        · intro pr hpr
          obtain ⟨h1, h2, h3, h4⟩ := hfound pr hpr
          exact ⟨h1, h2, fun hmem => h3 (List.mem_cons_of_mem _ hmem), h4⟩
        · simp only [List.length_cons] at hfuel
          omega

theorem neighbours_in_bounds {m : Matrix α} {p q : UVec2}
    (hp : m.is_in_bounds p) (hq : q ∈ m.neighbours p) :
    m.is_in_bounds q := by
  obtain ⟨hx, hy⟩ := hp
  have hw : 0 < m.size.x := lt_of_le_of_lt (Nat.zero_le _) hx
  have hh : 0 < m.size.y := lt_of_le_of_lt (Nat.zero_le _) hy
  rw [mem_neighbours hw hh] at hq
  unfold is_in_bounds
  rcases hq with ⟨h1, h2, rfl⟩ | ⟨h1, rfl⟩ | ⟨h1, h2, rfl⟩ | ⟨h1, rfl⟩ |
    ⟨h1, rfl⟩ | ⟨h1, h2, rfl⟩ | ⟨h1, rfl⟩ | ⟨h1, h2, rfl⟩ <;>
    simp only [UVec2.mk_x, UVec2.mk_y] <;> omega

end Matrix

theorem getD_set_self {β : Type} (l : List β) (i : ℕ) (h : i < l.length)
    (a d : β) : (l.set i a).getD i d = a := by
  induction l generalizing i with
  | nil => simp at h
  | cons b t ih =>
    cases i with
    | zero => rfl
    | succ i => exact ih i (by simpa using h)

theorem getD_set_ne {β : Type} (l : List β) {i j : ℕ} (h : i ≠ j)
    (a d : β) : (l.set i a).getD j d = l.getD j d := by
  induction l generalizing i j with
  | nil => rfl
  | cons b t ih =>
    cases i with
    | zero =>
      cases j with
      | zero => exact absurd rfl h
      | succ j => rfl
    | succ i =>
      cases j with
      | zero => rfl
      | succ j => exact ih (by omega)

theorem count_set_true (l : List Bool) (i : ℕ) (h : i < l.length)
    (hf : l.getD i false = false) :
    (l.set i true).count true = l.count true + 1 := by
  induction l generalizing i with
  | nil => simp at h
  | cons b t ih =>
    cases i with
    | zero =>
      have hb : b = false := hf
      subst hb
      simp [List.count_cons]
    | succ i =>
      have := ih i (by simpa using h) hf
      simp only [List.set, List.count_cons, this]
      omega

theorem pqPopMin_cons_ne_none (e : UVec2 × Q2) (rest : List (UVec2 × Q2)) :
    pqPopMin (e :: rest) ≠ none := by
  unfold pqPopMin
  split <;> (try split) <;> simp_all

theorem pqPopMin_eq_none {l : List (UVec2 × Q2)} (h : pqPopMin l = none) :
    l = [] := by
  cases l with
  | nil => rfl
  | cons e rest => exact absurd h (pqPopMin_cons_ne_none e rest)

theorem pqPopMin_split :
    ∀ {l : List (UVec2 × Q2)} {e : UVec2 × Q2} {r : List (UVec2 × Q2)},
      pqPopMin l = some (e, r) → ∃ l1 l2, l = l1 ++ e :: l2 ∧ r = l1 ++ l2 := by
  intro l
  induction l with
  | nil => intro e r h; simp [pqPopMin] at h
  | cons a rest ih =>
    intro e r h
    unfold pqPopMin at h
    cases hrest : pqPopMin rest with
    | none =>
      rw [hrest] at h
      have hr : rest = [] := pqPopMin_eq_none hrest
      subst hr
      simp only [Option.some.injEq, Prod.mk.injEq] at h
      obtain ⟨rfl, rfl⟩ := h
      exact ⟨[], [], rfl, rfl⟩
    | some br =>
      obtain ⟨b, others⟩ := br
      rw [hrest] at h
      dsimp only at h
      by_cases hle : Q2.leb a.2 b.2
      · rw [if_pos hle] at h
        simp only [Option.some.injEq, Prod.mk.injEq] at h
        obtain ⟨rfl, rfl⟩ := h
        exact ⟨[], rest, rfl, rfl⟩
      · rw [if_neg hle] at h
        simp only [Option.some.injEq, Prod.mk.injEq] at h
        obtain ⟨rfl, rfl⟩ := h
        obtain ⟨l1, l2, hrest2, hoth⟩ := ih hrest
        exact ⟨a :: l1, l2, by simp [hrest2], by simp [hoth]⟩

theorem pqPush_mem {q : List (UVec2 × Q2)} {k : UVec2} {pr : Q2} :
    ∀ x ∈ pqPush q k pr, x = (k, pr) ∨ x ∈ q := by
  unfold pqPush
  split
  · intro x hx
    obtain ⟨e, he, hxe⟩ := List.mem_map.mp hx
    by_cases hek : e.1 = k
    · rw [if_pos hek] at hxe
      exact Or.inl hxe.symm
    · rw [if_neg hek] at hxe
      right
      rw [← hxe]
      exact he
  · intro x hx
    rcases List.mem_append.mp hx with h | h
    · exact Or.inr h
    · left
      simpa using h

theorem pqPush_map_fst_nodup {q : List (UVec2 × Q2)} {k : UVec2} {pr : Q2}
    (h : (q.map Prod.fst).Nodup) :
    ((pqPush q k pr).map Prod.fst).Nodup := by
  unfold pqPush
  split
  · have heq : (q.map (fun e => if e.1 = k then (k, pr) else e)).map Prod.fst =
        q.map Prod.fst := by
      rw [List.map_map]
      apply List.map_congr_left
      intro e _
      by_cases hek : e.1 = k
      · simp only [Function.comp_apply, if_pos hek]
        exact hek.symm
      · simp only [Function.comp_apply, if_neg hek]
    rw [heq]
    exact h
  · rename_i hany
    rw [List.map_append]
    have hk : k ∉ q.map Prod.fst := by
      intro hmem
      obtain ⟨e, he, hek⟩ := List.mem_map.mp hmem
      exact hany (List.any_eq_true.mpr ⟨e, he, by simp [hek]⟩)
    simp [List.nodup_append, h, hk]

namespace Matrix

variable {α : Type}

theorem visit_queue_mem [Inhabited α] (m : Matrix α)
    (speedFn : UVec2 → UVec2 → α → ℚ) (turnPenalty diagM : ℚ)
    (target currentPos : UVec2) (currentIdx : ℕ) (closed : List Bool)
    (acc : List UVec2 × List (Option ℚ) × List (UVec2 × Q2)) (nb : UVec2) :
    ∀ x ∈ (m.aStarVisitNeighbour speedFn turnPenalty diagM target currentPos
        currentIdx closed acc nb).2.2,
      x ∈ acc.2.2 ∨
        (x.1 = nb ∧ closed.getD (m.pos_to_idx nb) false = false) := by
  unfold aStarVisitNeighbour
  dsimp only
  split
  · exact fun x hx => Or.inl hx
  · rename_i hcl
    split
    · exact fun x hx => Or.inl hx
    · split <;> (try split) <;>
        first
          | exact fun x hx => Or.inl hx
          | (intro x hx
             rcases pqPush_mem x hx with heq | hmem
             · right
               rw [heq]
               exact ⟨rfl, by simpa using hcl⟩
             · exact Or.inl hmem)

theorem visit_queue_nodup [Inhabited α] (m : Matrix α)
    (speedFn : UVec2 → UVec2 → α → ℚ) (turnPenalty diagM : ℚ)
    (target currentPos : UVec2) (currentIdx : ℕ) (closed : List Bool)
    (acc : List UVec2 × List (Option ℚ) × List (UVec2 × Q2)) (nb : UVec2)
    (h : (acc.2.2.map Prod.fst).Nodup) :
    (((m.aStarVisitNeighbour speedFn turnPenalty diagM target currentPos
        currentIdx closed acc nb).2.2).map Prod.fst).Nodup := by
  unfold aStarVisitNeighbour
  dsimp only
  split <;> (try split) <;> (try split) <;> (try split) <;>
    first
      | exact h
      | exact pqPush_map_fst_nodup h

theorem foldl_visit_queue_mem [Inhabited α] (m : Matrix α)
    (speedFn : UVec2 → UVec2 → α → ℚ) (turnPenalty diagM : ℚ)
    (target currentPos : UVec2) (currentIdx : ℕ) (closed : List Bool)
    (L : List UVec2) :
    ∀ (acc : List UVec2 × List (Option ℚ) × List (UVec2 × Q2)),
      (∀ x ∈ acc.2.2, m.is_in_bounds x.1 ∧
        closed.getD (m.pos_to_idx x.1) false = false) →
      (∀ nb ∈ L, m.is_in_bounds nb) →
      ∀ x ∈ (L.foldl (m.aStarVisitNeighbour speedFn turnPenalty diagM target
          currentPos currentIdx closed) acc).2.2,
        m.is_in_bounds x.1 ∧ closed.getD (m.pos_to_idx x.1) false = false := by
  induction L with
  | nil => exact fun acc hacc _ x hx => hacc x hx
  | cons nb L ih =>
    intro acc hacc hL x hx
    refine ih _ ?_ (fun n hn => hL n (List.mem_cons_of_mem _ hn)) x hx
    intro y hy
    rcases m.visit_queue_mem speedFn turnPenalty diagM target currentPos
        currentIdx closed acc nb y hy with hmem | ⟨hkey, hclosed⟩
    · exact hacc y hmem
    · rw [hkey]
      exact ⟨hL nb (List.mem_cons_self _ _), hclosed⟩

theorem foldl_visit_queue_nodup [Inhabited α] (m : Matrix α)
    (speedFn : UVec2 → UVec2 → α → ℚ) (turnPenalty diagM : ℚ)
    (target currentPos : UVec2) (currentIdx : ℕ) (closed : List Bool)
    (L : List UVec2) :
    ∀ (acc : List UVec2 × List (Option ℚ) × List (UVec2 × Q2)),
      (acc.2.2.map Prod.fst).Nodup →
      (((L.foldl (m.aStarVisitNeighbour speedFn turnPenalty diagM target
          currentPos currentIdx closed) acc).2.2).map Prod.fst).Nodup := by
  induction L with
  | nil => exact fun acc hacc => hacc
  | cons nb L ih =>
    intro acc hacc
    exact ih _ (m.visit_queue_nodup speedFn turnPenalty diagM target currentPos
      currentIdx closed acc nb hacc)

theorem aStarLoop_ne_outOfFuel [Inhabited α] (m : Matrix α)
    (speedFn : UVec2 → UVec2 → α → ℚ) (turnPenalty : ℚ)
    (maxSearchDepth : Option ℕ) (diagCostMultiplier : Option ℚ)
    (target : UVec2) :
    ∀ (fuel : ℕ) (st : AStarState),
      (∀ e ∈ st.openNodes, m.is_in_bounds e.1 ∧
        st.closed.getD (m.pos_to_idx e.1) false = false) →
      (st.openNodes.map Prod.fst).Nodup →
      st.closed.length = m.element_count →
      m.element_count + 1 ≤ fuel + st.closed.count true →
      m.aStarLoop speedFn turnPenalty maxSearchDepth diagCostMultiplier target
        fuel st ≠ .outOfFuel := by
  intro fuel
  induction fuel with
  | zero =>
    intro st _ _ hlen hfuel
    exfalso
    have hc : st.closed.count true ≤ st.closed.length :=
      List.count_le_length true st.closed
    omega
  | succ fuel ih =>
    intro st hopen hnodup hlen hfuel
    rw [aStarLoop]
    cases hpop : pqPopMin st.openNodes with
    | none => simp
    | some pr =>
      obtain ⟨cur, rest⟩ := pr
      dsimp only
      split
      · simp
      · split
        · simp
        · obtain ⟨l1, l2, hsplit, hrest⟩ := pqPopMin_split hpop
          have hcur : cur ∈ st.openNodes := by
            rw [hsplit]
            exact List.mem_append.mpr (Or.inr (List.mem_cons_self _ _))
          obtain ⟨hcurb, hcurcl⟩ := hopen cur hcur
          have hidx : m.pos_to_idx cur.1 < st.closed.length := by
            rw [hlen]
            exact pos_to_idx_lt hcurb
          have hfst : (st.openNodes.map Prod.fst).Nodup := hnodup
          have hnodup2 : ((l1 ++ l2).map Prod.fst).Nodup := by
            refine List.Nodup.sublist (List.Sublist.map _ ?_) hfst
            rw [hsplit]
            exact List.Sublist.append_left (List.sublist_cons_self cur l2) l1
          have hkeyne : ∀ x ∈ l1 ++ l2, x.1 ≠ cur.1 := by
            intro x hx hxk
            have hmap : ((l1 ++ cur :: l2).map Prod.fst).Nodup := by
              rw [← hsplit]; exact hfst
            rw [List.map_append, List.map_cons] at hmap
            rcases List.mem_append.mp hx with h1 | h2
            · have : cur.1 ∈ l1.map Prod.fst := by
                rw [← hxk]
                exact List.mem_map_of_mem _ h1
              exact (List.disjoint_of_nodup_append hmap) this
                (List.mem_cons_self _ _)
            · have hnd2 : (cur.1 :: l2.map Prod.fst).Nodup :=
                (List.nodup_append.mp hmap).2.1
              have : cur.1 ∈ l2.map Prod.fst := by
                rw [← hxk]
                exact List.mem_map_of_mem _ h2
              exact (List.nodup_cons.mp hnd2).1 this
          have hbase : ∀ x ∈ l1 ++ l2, m.is_in_bounds x.1 ∧
              (st.closed.set (m.pos_to_idx cur.1) true).getD
                (m.pos_to_idx x.1) false = false := by
            intro x hx
            have hxo : x ∈ st.openNodes := by
              rw [hsplit]
              rcases List.mem_append.mp hx with h1 | h2
              · exact List.mem_append.mpr (Or.inl h1)
              · exact List.mem_append.mpr (Or.inr (List.mem_cons_of_mem _ h2))
            obtain ⟨hxb, hxcl⟩ := hopen x hxo
            refine ⟨hxb, ?_⟩
            rw [getD_set_ne]
            · exact hxcl
            · intro hieq
              exact hkeyne x hx (pos_to_idx_inj hcurb hxb hieq).symm
          have hnb : ∀ nb ∈ (if diagCostMultiplier.isSome then
              m.neighbours cur.1 else m.neighbours_no_diag cur.1),
              m.is_in_bounds nb := by
            intro nb hnbm
            split at hnbm
            · exact neighbours_in_bounds hcurb hnbm
            · exact neighbours_no_diag_in_bounds hcurb hnbm
          have haccbase : ∀ x ∈ ((st.cameFrom, st.gCosts, rest) :
              List UVec2 × List (Option ℚ) × List (UVec2 × Q2)).2.2,
              m.is_in_bounds x.1 ∧
              (st.closed.set (m.pos_to_idx cur.1) true).getD
                (m.pos_to_idx x.1) false = false := by
            intro x hx
            exact hbase x (hrest ▸ hx)
          have hmem := m.foldl_visit_queue_mem speedFn turnPenalty
            (diagCostMultiplier.getD 1) target cur.1 (m.pos_to_idx cur.1)
            (st.closed.set (m.pos_to_idx cur.1) true)
            (if diagCostMultiplier.isSome then m.neighbours cur.1
              else m.neighbours_no_diag cur.1)
            (st.cameFrom, st.gCosts, rest) haccbase hnb
          have hnd := m.foldl_visit_queue_nodup speedFn turnPenalty
            (diagCostMultiplier.getD 1) target cur.1 (m.pos_to_idx cur.1)
            (st.closed.set (m.pos_to_idx cur.1) true)
            (if diagCostMultiplier.isSome then m.neighbours cur.1
              else m.neighbours_no_diag cur.1)
            (st.cameFrom, st.gCosts, rest) (by rw [hrest]; exact hnodup2)
          refine ih _ (fun e he => hmem e he) hnd ?_ ?_
          · rw [List.length_set]
            exact hlen
          · rw [count_set_true st.closed (m.pos_to_idx cur.1) hidx hcurcl]
            omega

theorem aStarRun_self [Inhabited α] (m : Matrix α) (p : UVec2)
    (speedFn : UVec2 → UVec2 → α → ℚ) (turnPenalty : ℚ)
    (maxSearchDepth : Option ℕ) (diagCostMultiplier : Option ℚ) :
    m.aStarRun p p speedFn turnPenalty maxSearchDepth diagCostMultiplier =
      if maxSearchDepth.getD 4294967295 < 1 then .budgetExceeded
      else .found [p] := by
  unfold aStarRun aStarInit
  simp only [aStarLoop, pqPopMin, Nat.zero_add, retrace_path_replicate,
    if_true]

theorem aStarRun_ne_outOfFuel [Inhabited α] (m : Matrix α)
    (start target : UVec2) (hstart : m.is_in_bounds start)
    (speedFn : UVec2 → UVec2 → α → ℚ) (turnPenalty : ℚ)
    (maxSearchDepth : Option ℕ) (diagCostMultiplier : Option ℚ) :
    m.aStarRun start target speedFn turnPenalty maxSearchDepth
      diagCostMultiplier ≠ .outOfFuel := by
  unfold aStarRun aStarInit
  apply aStarLoop_ne_outOfFuel
  · intro e he
    simp only [List.mem_singleton] at he
    subst he
    exact ⟨hstart, getD_replicate false m.element_count _⟩
  · simp
  · simp
  · simp [List.count_replicate]

section
attribute [local semireducible] Rat.add Rat.mul Rat.inv Rat.sub

theorem aStar_budget_one_concrete :
    (Matrix.splat ⟨3, 3⟩ (1 : ℚ)).a_star_search ⟨0, 0⟩ ⟨2, 2⟩
      (fun _ _ v => v) 0 (some 1) none = none := by
  decide

theorem aStar_unconstrained_concrete :
    ((Matrix.splat ⟨3, 3⟩ (1 : ℚ)).a_star_search ⟨0, 0⟩ ⟨2, 2⟩
      (fun _ _ v => v) 0 none none).isSome = true := by
  decide

end

/-- C5: with an in-bounds start, labelling the exits of the search loop shows
`a_star_search` returns `none` exactly when the run ends by exceeding the
expansion budget (checked once per dequeue) or by exhausting the frontier,
and both exits collapse to the same `none`; in particular on the 3×3 uniform
grid a budget of 1 makes the search from `(0,0)` to `(2,2)` fail although the
unconstrained search succeeds. -/
theorem C5_absent_result_conflation [Inhabited α] (m : Matrix α)
    (start target : UVec2) (hstart : m.is_in_bounds start)
    (speedFn : UVec2 → UVec2 → α → ℚ) (turnPenalty : ℚ)
    (maxSearchDepth : Option ℕ) (diagCostMultiplier : Option ℚ) :
    (m.a_star_search start target speedFn turnPenalty maxSearchDepth
        diagCostMultiplier = none ↔
      m.aStarRun start target speedFn turnPenalty maxSearchDepth
        diagCostMultiplier = .budgetExceeded ∨
      m.aStarRun start target speedFn turnPenalty maxSearchDepth
        diagCostMultiplier = .exhausted) ∧
    (Matrix.splat ⟨3, 3⟩ (1 : ℚ)).a_star_search ⟨0, 0⟩ ⟨2, 2⟩
        (fun _ _ v => v) 0 (some 1) none = none ∧
    ((Matrix.splat ⟨3, 3⟩ (1 : ℚ)).a_star_search ⟨0, 0⟩ ⟨2, 2⟩
        (fun _ _ v => v) 0 none none).isSome = true := by
  refine ⟨?_, aStar_budget_one_concrete, aStar_unconstrained_concrete⟩
  have hne := m.aStarRun_ne_outOfFuel start target hstart speedFn turnPenalty
    maxSearchDepth diagCostMultiplier
  unfold a_star_search
  cases hrun : m.aStarRun start target speedFn turnPenalty maxSearchDepth
      diagCostMultiplier with
  | found p => simp
  | budgetExceeded => simp
  | exhausted => simp
  | outOfFuel => exact absurd hrun hne

/-- C5 witness on a concrete 2×2 grid. -/
theorem C5_absent_result_conflation_witness :
    ((Matrix.splat ⟨2, 2⟩ (1 : ℚ)).a_star_search ⟨0, 0⟩ ⟨1, 1⟩
        (fun _ _ v => v) 0 none none = none ↔
      (Matrix.splat ⟨2, 2⟩ (1 : ℚ)).aStarRun ⟨0, 0⟩ ⟨1, 1⟩
        (fun _ _ v => v) 0 none none = .budgetExceeded ∨
      (Matrix.splat ⟨2, 2⟩ (1 : ℚ)).aStarRun ⟨0, 0⟩ ⟨1, 1⟩
        (fun _ _ v => v) 0 none none = .exhausted) ∧
    (Matrix.splat ⟨3, 3⟩ (1 : ℚ)).a_star_search ⟨0, 0⟩ ⟨2, 2⟩
        (fun _ _ v => v) 0 (some 1) none = none :=
  ⟨(C5_absent_result_conflation (Matrix.splat ⟨2, 2⟩ (1 : ℚ)) ⟨0, 0⟩ ⟨1, 1⟩
      (by decide) (fun _ _ v => v) 0 none none).1,
   (C5_absent_result_conflation (Matrix.splat ⟨2, 2⟩ (1 : ℚ)) ⟨0, 0⟩ ⟨1, 1⟩
      (by decide) (fun _ _ v => v) 0 none none).2.1⟩

/-- C10: calling `a_star_search` with `start = target = p` returns the
single-cell path `[p]` whenever the expansion budget is absent or at least 1,
for every grid, move-speed function (even an all-impassable one) and turn
penalty; with a budget of 0 the same call returns `none`. -/
theorem C10_trivial_path [Inhabited α] (m : Matrix α) (p : UVec2)
    (speedFn : UVec2 → UVec2 → α → ℚ) (turnPenalty : ℚ)
    (diagCostMultiplier : Option ℚ) :
    (∀ maxSearchDepth : Option ℕ,
      (maxSearchDepth = none ∨ ∃ d, maxSearchDepth = some d ∧ 1 ≤ d) →
      m.a_star_search p p speedFn turnPenalty maxSearchDepth
        diagCostMultiplier = some [p]) ∧
    m.a_star_search p p speedFn turnPenalty (some 0) diagCostMultiplier =
      none := by
  constructor
  · intro msd hmsd
    unfold a_star_search
    rw [aStarRun_self]
    have hno : ¬ (msd.getD 4294967295 < 1) := by
      rcases hmsd with rfl | ⟨d, rfl, hd⟩ <;> simp [Option.getD] <;> omega
    rw [if_neg hno]
  · unfold a_star_search
    rw [aStarRun_self]
    rfl

/-- C10 witness: concrete 3×3 grid, all cells impassable, start = target. -/
theorem C10_trivial_path_witness :
    (Matrix.splat ⟨3, 3⟩ (0 : ℚ)).a_star_search ⟨1, 1⟩ ⟨1, 1⟩
        (fun _ _ _ => 0) 5 none (some 2) = some [⟨1, 1⟩] ∧
    (Matrix.splat ⟨3, 3⟩ (0 : ℚ)).a_star_search ⟨1, 1⟩ ⟨1, 1⟩
        (fun _ _ _ => 0) 5 (some 0) (some 2) = none :=
  ⟨(C10_trivial_path (Matrix.splat ⟨3, 3⟩ (0 : ℚ)) ⟨1, 1⟩ (fun _ _ _ => 0) 5
      (some 2)).1 none (Or.inl rfl),
   (C10_trivial_path (Matrix.splat ⟨3, 3⟩ (0 : ℚ)) ⟨1, 1⟩ (fun _ _ _ => 0) 5
      (some 2)).2⟩

/-- C4: `bfs` returns the first dequeued position satisfying the predicate,
paired with its value; the dequeue order visits exactly the cells reachable
from the start by cardinal steps, each exactly once, so when no reachable
cell matches, the search returns `none` after having visited every reachable
cell exactly once. -/
theorem C4_bfs_first_match [Inhabited α] (m : Matrix α) (start : UVec2)
    (searchFn : α → UVec2 → Bool) (hs : m.is_in_bounds start) :
    m.bfs start searchFn =
      ((m.bfsOrder start).find? (fun p => searchFn (m.get p) p)).map
        (fun p => (p, m.get p)) ∧
    (m.bfsOrder start).Nodup ∧
    (∀ p, p ∈ m.bfsOrder start ↔ m.Reaches start p) ∧
    ((∀ p, m.Reaches start p → searchFn (m.get p) p = false) →
      m.bfs start searchFn = none) := by
  obtain ⟨N2, O2, O3, O4, O5⟩ := m.bfsOrderLoop_spec start
    (m.element_count + 1) [start] {start}
    (List.nodup_singleton _)
    (by
      intro x hx
      rw [List.mem_singleton] at hx
      subst hx
      exact Finset.mem_singleton_self _)
    (by
      intro x hx
      rw [Finset.mem_singleton] at hx
      subst hx
      exact ⟨hs, Relation.ReflTransGen.refl⟩)
    (by
      simp only [List.length_cons, List.length_nil, Finset.card_singleton]
      omega)
  have horder : ∀ p, p ∈ m.bfsOrder start ↔ m.Reaches start p := by
    intro p
    refine ⟨O3 p, fun hp => ?_⟩
    unfold Reaches at hp
    induction hp with
    | refl => exact O4 start (List.mem_singleton_self _)
    | tail h1 h2 ih =>
      rcases O5 _ ih _ h2 with h | ⟨hv, hq2⟩
      · exact h
      · rw [Finset.mem_singleton] at hv
        subst hv
        exact absurd (List.mem_singleton_self _) hq2
  have htrace : m.bfs start searchFn =
      ((m.bfsOrder start).find? (fun p => searchFn (m.get p) p)).map
        (fun p => (p, m.get p)) := m.bfsLoop_eq_find searchFn _ _ _
  refine ⟨htrace, N2, horder, fun hnall => ?_⟩
  have hnone : (m.bfsOrder start).find?
      (fun p => searchFn (m.get p) p) = none :=
    List.find?_eq_none.mpr fun x hx => by
      rw [hnall x ((horder x).mp hx)]
      simp
  rw [htrace, hnone]
  rfl

/-- C4 witness: the characterization instantiated on a concrete 2×2 grid with
a never-matching predicate. -/
theorem C4_bfs_first_match_witness :
    (Matrix.splat ⟨2, 2⟩ (0 : ℚ)).is_in_bounds ⟨0, 0⟩ ∧
    ((Matrix.splat ⟨2, 2⟩ (0 : ℚ)).bfs ⟨0, 0⟩ (fun _ _ => false) =
      (((Matrix.splat ⟨2, 2⟩ (0 : ℚ)).bfsOrder ⟨0, 0⟩).find?
        (fun p => (fun (_ : ℚ) (_ : UVec2) => false)
          ((Matrix.splat ⟨2, 2⟩ (0 : ℚ)).get p) p)).map
        (fun p => (p, (Matrix.splat ⟨2, 2⟩ (0 : ℚ)).get p)) ∧
    ((Matrix.splat ⟨2, 2⟩ (0 : ℚ)).bfsOrder ⟨0, 0⟩).Nodup ∧
    (∀ p, p ∈ (Matrix.splat ⟨2, 2⟩ (0 : ℚ)).bfsOrder ⟨0, 0⟩ ↔
      (Matrix.splat ⟨2, 2⟩ (0 : ℚ)).Reaches ⟨0, 0⟩ p) ∧
    ((∀ p, (Matrix.splat ⟨2, 2⟩ (0 : ℚ)).Reaches ⟨0, 0⟩ p →
        (fun (_ : ℚ) (_ : UVec2) => false)
          ((Matrix.splat ⟨2, 2⟩ (0 : ℚ)).get p) p = false) →
      (Matrix.splat ⟨2, 2⟩ (0 : ℚ)).bfs ⟨0, 0⟩ (fun _ _ => false) = none)) :=
  ⟨by decide, C4_bfs_first_match (Matrix.splat ⟨2, 2⟩ (0 : ℚ)) ⟨0, 0⟩
    (fun _ _ => false) (by decide)⟩

/-- C2: `bfs_multi` returns exactly the matching cells of the gated
4-connected region of the seed, with their stored values and no duplicate
positions; in particular, when the seed itself fails the predicate the result
is the empty list even if matching cells exist elsewhere. -/
theorem C2_gated_flood_match [Inhabited α] (m : Matrix α) (seed : UVec2)
    (searchFn : α → UVec2 → Bool) (hseed : m.is_in_bounds seed) :
    (searchFn (m.get seed) seed = false → m.bfs_multi seed searchFn = []) ∧
    ((m.bfs_multi seed searchFn).map Prod.fst).Nodup ∧
    (∀ pr ∈ m.bfs_multi seed searchFn, pr.2 = m.get pr.1) ∧
    (∀ p, p ∈ (m.bfs_multi seed searchFn).map Prod.fst ↔
      m.InMatchRegion searchFn seed p) := by
  obtain ⟨hnd, hsound, hcomp⟩ := m.bfs_multiLoop_spec searchFn seed
    (m.element_count + 1) [seed] {seed} []
    (List.nodup_singleton _)
    (by
      intro x hx
      rw [List.mem_singleton] at hx
      subst hx
      exact Finset.mem_singleton_self _)
    (by
      intro x hx
      rw [Finset.mem_singleton] at hx
      subst hx
      exact ⟨hseed, Relation.ReflTransGen.refl⟩)
    (by
      intro x hx hxq hMx
      rw [Finset.mem_singleton] at hx
      subst hx
      exact absurd (List.mem_singleton_self _) hxq)
    (by
      intro pr hpr
      simp at hpr)
    (by simp)
    (Finset.mem_singleton_self _)
    (by
      simp only [List.length_cons, List.length_nil, Finset.card_singleton]
      omega)
  have hres : m.bfs_multi seed searchFn =
      m.bfs_multiLoop searchFn (m.element_count + 1) [seed] {seed} [] := rfl
  rw [hres]
  refine ⟨fun hfail => ?_, hnd, fun pr hpr => (hsound pr hpr).1, fun p => ?_⟩
  · rw [List.eq_nil_iff_forall_not_mem]
    intro pr hpr
    have hreg := (hsound pr hpr).2
    rcases Relation.ReflTransGen.cases_head hreg.1 with heq | ⟨c, hstep, _⟩
    · exact absurd (heq ▸ hreg.2) (by simp [hfail])
    · exact absurd hstep.1 (by simp [hfail])
  · constructor
    · intro hp
      obtain ⟨pr, hpr, rfl⟩ := List.mem_map.mp hp
      exact (hsound pr hpr).2
    · exact hcomp p

/-- C2 witness: the characterization instantiated on a concrete 2×2 grid with
the always-matching predicate and seed `(0,0)`. -/
theorem C2_gated_flood_match_witness :
    (Matrix.splat ⟨2, 2⟩ (0 : ℚ)).is_in_bounds ⟨0, 0⟩ ∧
    (((fun (_ : ℚ) (_ : UVec2) => true)
        ((Matrix.splat ⟨2, 2⟩ (0 : ℚ)).get ⟨0, 0⟩) ⟨0, 0⟩ = false →
      (Matrix.splat ⟨2, 2⟩ (0 : ℚ)).bfs_multi ⟨0, 0⟩ (fun _ _ => true) = []) ∧
    (((Matrix.splat ⟨2, 2⟩ (0 : ℚ)).bfs_multi ⟨0, 0⟩
        (fun _ _ => true)).map Prod.fst).Nodup ∧
    (∀ pr ∈ (Matrix.splat ⟨2, 2⟩ (0 : ℚ)).bfs_multi ⟨0, 0⟩ (fun _ _ => true),
      pr.2 = (Matrix.splat ⟨2, 2⟩ (0 : ℚ)).get pr.1) ∧
    (∀ p, p ∈ ((Matrix.splat ⟨2, 2⟩ (0 : ℚ)).bfs_multi ⟨0, 0⟩
        (fun _ _ => true)).map Prod.fst ↔
      (Matrix.splat ⟨2, 2⟩ (0 : ℚ)).InMatchRegion (fun _ _ => true)
        ⟨0, 0⟩ p)) :=
  ⟨by decide, C2_gated_flood_match (Matrix.splat ⟨2, 2⟩ (0 : ℚ)) ⟨0, 0⟩
    (fun _ _ => true) (by decide)⟩

end Matrix

end Spatial2D
